import Mathlib

/-!
Verification of the schema-catalog core of a Cassandra C++ driver
(`src/metadata.hpp` / `src/metadata.cpp`).

The development shallowly embeds the catalog's data model and operations:

* value/row inputs coming from the protocol layer are modelled as already
  decoded records (the row/value decoders and `TypeParser` are external
  collaborators consumed as black boxes);
* `CopyOnWritePtr` collections are modelled with plain value semantics:
  the class is not part of the sources under verification, so its
  detach-on-write behaviour is taken from the specification (a reader's
  handle keeps the value it was given; a writer's structural mutation
  produces a new value) — see the doc comments marked `Modelled from the
  spec:` below;
* `SharedRefPtr<TableMetadata>` objects, which are mutated in place by
  `Metadata::InternalData::update_columns`, are modelled as references
  into an explicit heap of table objects so that aliasing between a
  snapshot and the live catalog is represented faithfully.

Machine integers: the `schema_snapshot_version_` counter is a `uint32_t`
and is modelled as a `Nat` reduced modulo `2^32`; column positions are
`int32_t` and are modelled as `Int` (no arithmetic is performed on them
that could overflow).
-/

namespace Cass

/-- Value-type tag of a parsed `DataType`; only the distinction between
`CASS_VALUE_TYPE_TEXT` and every other tag is consulted by the catalog
(legacy clustering-key heuristic in `TableMetadata::build_keys_and_sort`). -/
inductive CassValueTypeM where
  | text
  | other
  deriving DecidableEq, Repr

/-- A resolved data type as produced by the external `TypeParser`
(consumed as a black box): its printable name and its value-type tag. -/
structure DTy where
  tname : String
  vtype : CassValueTypeM
  deriving DecidableEq, Repr

/-- Result of `TypeParser::parse_with_composite` on a type string:
the component types, whether the string denoted a composite, and the
embedded collection types (only emptiness is consulted). -/
structure ParseRes where
  types : List DTy
  isComposite : Bool
  collections : List DTy
  deriving DecidableEq, Repr

/-- `CassColumnType` from the public API. -/
inductive CassColumnTypeM where
  | partitionKey
  | clusteringKey
  | staticCol
  | regular
  deriving DecidableEq, Repr

/-- `ColumnMetadata`: name, key class, ordinal position, resolved data
type (possibly unresolved when the validator string failed to parse),
clustering-order flag. -/
structure ColumnT where
  cname : String
  ctype : CassColumnTypeM
  position : Int
  dataType : Option DTy
  isReversed : Bool
  deriving DecidableEq, Repr

/-- `TableMetadata`: the column sequence plus the two derived key
sequences (`partition_key_` / `clustering_key_` are vectors of possibly
null `ColumnMetadata::Ptr`, hence `Option`).  The legacy-schema fields a
table row carries (`key_aliases`, `column_aliases`, `key_validator`,
`comparator`) are stored in decoded/parsed form: JSON decoding and type
parsing are external collaborators. -/
structure TableT where
  tname : String
  fields : List (String × String)
  keyAliases : List String
  columnAliases : List String
  keyValidator : ParseRes
  comparator : ParseRes
  columns : List ColumnT
  partitionKey : List (Option ColumnT)
  clusteringKey : List (Option ColumnT)
  deriving DecidableEq, Repr

end Cass

namespace Cass

/-- `::isspace` on the ASCII characters produced by schema type strings. -/
def isSpaceC (c : Char) : Bool :=
  c = ' ' || c = '\t' || c = '\n' || c = '\x0b' || c = '\x0c' || c = '\r'

/-- Whitespace removal performed on each signature argument:
`argument.erase(std::remove_if(argument.begin(), argument.end(), ::isspace), argument.end())`. -/
def stripWs (s : String) : String :=
  ⟨s.data.filter (fun c => !isSpaceC c)⟩

/-- Loop body of `Metadata::full_function_name`: the comma is emitted
whenever the current iterator is not `signature.begin()` (a positional
test), independently of whether any earlier argument was emitted.
`isFirst` tracks `i == signature.begin()`. -/
def ffnAux : List String → Bool → String
  | [], _ => ""
  | a :: rest, isFirst =>
    let argument := stripWs a
    (if argument ≠ "" then (if isFirst then "" else ",") ++ argument else "")
      ++ ffnAux rest false

/-- `Metadata::full_function_name(name, signature)`: canonical
overload-qualified name. -/
def fullFunctionName (name : String) (signature : List String) : String :=
  name ++ "(" ++ ffnAux signature true ++ ")"

/-- Claimed behaviour of `full_function_name` (from the spec's words, for
comparison): whitespace-stripped non-empty arguments joined with a single
comma between consecutive *emitted* arguments. -/
def fullNameSpec (name : String) (signature : List String) : String :=
  name ++ "(" ++ String.intercalate "," ((signature.map stripWs).filter (· ≠ "")) ++ ")"

/-- Concatenation of a list of strings. -/
def strConcat : List String → String
  | [] => ""
  | s :: rest => s ++ strConcat rest

/-- Amended behaviour: the comma precedes an emitted argument whenever the
argument does not occupy the first position of the input list, so a
dropped first argument followed by an emitted one yields a leading comma. -/
def fullNameAmended (name : String) (signature : List String) : String :=
  name ++ "(" ++
    strConcat ((signature.enum.map (fun p =>
      let t := stripWs p.2
      if t = "" then "" else (if p.1 = 0 then "" else ",") ++ t))) ++ ")"

/-! ## Key derivation engine (`TableMetadata::build_keys_and_sort`) -/

/-- `ColumnCompare::operator()` from `metadata.cpp`: the strict comparison
handed to `std::stable_sort`. -/
def columnCompare (a b : ColumnT) : Bool :=
  if a.ctype = b.ctype then
    decide ((a.ctype = .partitionKey ∨ a.ctype = .clusteringKey) ∧ a.position < b.position)
  else
    decide (a.ctype = .partitionKey ∨ (a.ctype = .clusteringKey ∧ b.ctype ≠ .partitionKey))

/-- Insert `x` into `l` in front of the first element `y` with `lt x y`;
used below to realize the `std::stable_sort` contract. -/
def insBy (lt : α → α → Bool) (x : α) : List α → List α
  | [] => [x]
  | y :: l => if lt x y then x :: y :: l else y :: insBy lt x l

/-- Stable sort by the strict comparison `lt` (the contract of
`std::stable_sort`): elements are taken left to right and each is placed
after all earlier elements it is not strictly less than, so equivalent
elements keep their original relative order. -/
def stableSortBy (lt : α → α → Bool) (l : List α) : List α :=
  l.foldl (fun acc x => insBy lt x acc) []

/-- `get_column_count(columns, type)` from `metadata.cpp`. -/
def getColumnCount (columns : List ColumnT) (t : CassColumnTypeM) : Nat :=
  (columns.filter (fun c => c.ctype = t)).length

/-- `std::vector::resize(n)` on a vector of (possibly null) column
pointers: truncate or pad with null. -/
def resizeOpt (l : List (Option ColumnT)) (n : Nat) : List (Option ColumnT) :=
  l.take n ++ List.replicate (n - l.length) none

/-- Placement loop of the modern (`major >= 2`) path: each partition /
clustering column whose position is in range is stored at its position
index; others are ignored. -/
def placeKeys : List ColumnT → List (Option ColumnT) × List (Option ColumnT) →
    List (Option ColumnT) × List (Option ColumnT)
  | [], acc => acc
  | c :: rest, (pk, ck) =>
    if c.ctype = .partitionKey ∧ 0 ≤ c.position ∧ c.position.toNat < pk.length then
      placeKeys rest (pk.set c.position.toNat (some c), ck)
    else if c.ctype = .clusteringKey ∧ 0 ≤ c.position ∧ c.position.toNat < ck.length then
      placeKeys rest (pk, ck.set c.position.toNat (some c))
    else
      placeKeys rest (pk, ck)

/-- Modern key derivation (`cassandra_version.major() >= 2` branch of
`build_keys_and_sort`). -/
def buildModern (t : TableT) : TableT :=
  let pk0 := resizeOpt t.partitionKey (getColumnCount t.columns .partitionKey)
  let ck0 := resizeOpt t.clusteringKey (getColumnCount t.columns .clusteringKey)
  let keys := placeKeys t.columns (pk0, ck0)
  { t with
    partitionKey := keys.1
    clusteringKey := keys.2
    columns := stableSortBy columnCompare t.columns }

/-- Name synthesized by `std::ostringstream ss(base); if (i > 0) ss << i + 1;`:
the stream's write position starts at 0, so the decimal digits of `i + 1`
overwrite the leading characters of `base` (for `base = "key"`, `i = 1`
this yields `"2ey"`, not `"key2"`). -/
def ossOverwrite (base : String) (i : Nat) : String :=
  if i = 0 then base
  else
    let d := toString (i + 1)
    d ++ base.drop d.length

/-- Alias chosen for partition-key component `i` in the legacy path. -/
def legacyKeyAlias (keyAliases : List String) (i : Nat) : String :=
  match keyAliases.get? i with
  | some a => a
  | none => ossOverwrite "key" i

/-- Alias chosen for clustering-key component `i` in the legacy path. -/
def legacyColumnAlias (columnAliases : List String) (i : Nat) : String :=
  match columnAliases.get? i with
  | some a => a
  | none => ossOverwrite "column" i

/-- Number of clustering-key components the legacy path keeps: the last
component of a composite comparator is dropped when the comparator
declares embedded collections, or when the alias count is one short of
the component count and the trailing component is of text type; a
non-composite comparator contributes clustering columns only when
aliases exist or the table has no explicit columns. -/
def legacyClusteringCount (comparator : ParseRes) (columnAliases : List String)
    (columnsIsEmpty : Bool) : Nat :=
  let size := comparator.types.length
  if comparator.isComposite then
    if !comparator.collections.isEmpty
        || (columnAliases.length = size - 1
            ∧ (comparator.types.getLast?.map DTy.vtype) = some .text) then
      size - 1
    else size
  else
    if !columnAliases.isEmpty || columnsIsEmpty then size else 0

/-- Legacy key derivation (`major < 2` branch of `build_keys_and_sort`):
partition and clustering keys are synthesized from the parsed
`key_validator` / `comparator` fields and the alias lists; the column
sequence becomes partition key ++ clustering key ++ previous columns.
The key vectors are appended to (`reserve` + `push_back`), not cleared.
The copy into `columns_` goes through `filterMap id` because every
pointer this path pushes is non-null, and `update_columns` always runs
`clear_columns` on a table before building its keys, so the pre-existing
key vectors are empty at every call site. -/
def buildLegacy (t : TableT) : TableT :=
  let pkNew := (List.range t.keyValidator.types.length).map (fun i =>
    { cname := legacyKeyAlias t.keyAliases i
      ctype := .partitionKey
      position := (t.partitionKey.length + i : Nat)
      dataType := t.keyValidator.types.get? i
      isReversed := false : ColumnT })
  let pk := t.partitionKey ++ pkNew.map some
  let ckCount := legacyClusteringCount t.comparator t.columnAliases t.columns.isEmpty
  let ckNew := (List.range ckCount).map (fun i =>
    { cname := legacyColumnAlias t.columnAliases i
      ctype := .clusteringKey
      position := (t.clusteringKey.length + i : Nat)
      dataType := t.comparator.types.get? i
      isReversed := false : ColumnT })
  let ck := t.clusteringKey ++ ckNew.map some
  { t with
    partitionKey := pk
    clusteringKey := ck
    columns := pk.filterMap id ++ ck.filterMap id ++ t.columns }

/-- `TableMetadata::build_keys_and_sort`, dispatching on the server's
major version. -/
def buildKeysAndSort (cassMajor : Int) (t : TableT) : TableT :=
  if 2 ≤ cassMajor then buildModern t else buildLegacy t

/-- `TableMetadata::add_column`. -/
def addColumnT (t : TableT) (c : ColumnT) : TableT :=
  { t with columns := t.columns ++ [c] }

/-- `TableMetadata::clear_columns`. -/
def clearColumnsT (t : TableT) : TableT :=
  { t with columns := [], partitionKey := [], clusteringKey := [] }

/-- `cass_table_meta_partition_key`: returns null both when the index is
out of range and when the slot holds a null column pointer. -/
def cassTableMetaPartitionKey (t : TableT) (index : Nat) : Option ColumnT :=
  match t.partitionKey.get? index with
  | some slot => slot
  | none => none

/-- `cass_table_meta_clustering_key`. -/
def cassTableMetaClusteringKey (t : TableT) (index : Nat) : Option ColumnT :=
  match t.clusteringKey.get? index with
  | some slot => slot
  | none => none

/-! ## Schema entity model: functions, aggregates, user types, keyspaces -/

/-- A decoded protocol value as observed through the row interface the
catalog consumes (`value_type()`, `primary_value_type()`, string/bool/int
accessors, collection iteration).  `nullv` is a present, zero-length
value; an absent column is `Option.none` at the row level. -/
inductive MVal where
  | varchar (s : String)
  | boolean (b : Bool)
  | int32 (n : Int)
  | blob (bytes : List Nat)
  | strlist (primaryVarchar : Bool) (elems : List String)
  | nullv
  deriving DecidableEq, Repr

/-- Is this value a non-null `CASS_VALUE_TYPE_VARCHAR`? -/
def MVal.asVarchar : Option MVal → Option String
  | some (.varchar s) => some s
  | _ => none

/-- Elements of a `CASS_VALUE_TYPE_LIST` value whose primary type is
`CASS_VALUE_TYPE_VARCHAR`, as iterated by `CollectionIterator`. -/
def MVal.asVarcharList : Option MVal → Option (List String)
  | some (.strlist true elems) => some elems
  | _ => none

/-- `TypeParser::parse_one`, an external black box; schema type strings
are kept as themselves, with the text tag recognized on the two CQL
names the driver compares against. -/
def parseOne (s : String) : DTy :=
  { tname := s, vtype := if s = "text" || s = "varchar" then .text else .other }

/-- `FunctionMetadata` (the canonical full name is the map key). -/
structure FunctionT where
  fullName : String
  simpleName : String
  args : List (String × DTy)
  returnType : Option DTy
  body : Option String
  language : Option String
  calledOnNullInput : Bool
  deriving DecidableEq, Repr

/-- Row fields read by the `FunctionMetadata` constructor. -/
structure FunRowData where
  argument_names : Option MVal := none
  argument_types : Option MVal := none
  return_type : Option MVal := none
  body : Option MVal := none
  language : Option MVal := none
  called_on_null_input : Option MVal := none
  deriving DecidableEq, Repr

/-- `FunctionMetadata::FunctionMetadata`: arguments are taken pairwise
while both lists (names and types) are varchar lists; every other field
is guarded by a value-type test, so construction never faults. -/
def functionConstruct (name : String) (signature : List String) (row : FunRowData) :
    FunctionT :=
  let args :=
    match MVal.asVarcharList row.argument_names, MVal.asVarcharList row.argument_types with
    | some names, some types => (names.zip types).map (fun p => (p.1, parseOne p.2))
    | _, _ => []
  { fullName := fullFunctionName name signature
    simpleName := name
    args := args
    returnType := (MVal.asVarchar row.return_type).map parseOne
    body := MVal.asVarchar row.body
    language := MVal.asVarchar row.language
    calledOnNullInput :=
      match row.called_on_null_input with
      | some (.boolean b) => b
      | _ => false }

/-- `AggregateMetadata`. -/
structure AggT where
  fullName : String
  simpleName : String
  argTypes : List DTy
  returnType : Option DTy
  stateType : Option DTy
  stateFunc : Option FunctionT
  finalFunc : Option FunctionT
  initCond : Option (List Nat)
  deriving DecidableEq, Repr

/-- Row fields read by the `AggregateMetadata` constructor. -/
structure AggRowData where
  argument_types : Option MVal := none
  return_type : Option MVal := none
  state_type : Option MVal := none
  final_func : Option MVal := none
  state_func : Option MVal := none
  initcond : Option MVal := none
  deriving DecidableEq, Repr

/-- `AggregateMetadata::AggregateMetadata`.  The `state_func` /
`final_func` branches call `state_type_->to_string()` without checking
the pointer: when the `state_type` column was absent, null or not a
varchar, `state_type_` is a null `DataType::Ptr` and the construction
dereferences it — modelled as returning `none` (a fault). -/
def aggregateConstruct (name : String) (signature : List String)
    (functions : List (String × FunctionT)) (row : AggRowData) : Option AggT := do
  let argTypes :=
    match MVal.asVarcharList row.argument_types with
    | some types => types.map parseOne
    | none => []
  let returnType := (MVal.asVarchar row.return_type).map parseOne
  let stateType := (MVal.asVarchar row.state_type).map parseOne
  let finalFunc ←
    match MVal.asVarchar row.final_func with
    | some f => do
      -- state_type_->to_string() : null dereference when stateType is unset
      let st ← stateType
      pure (((functions.find? (fun p => p.1 = fullFunctionName f [st.tname])).map (·.2)))
    | none => pure none
  let stateFunc ←
    match MVal.asVarchar row.state_func with
    | some f => do
      let st ← stateType
      pure (((functions.find? (fun p =>
        p.1 = fullFunctionName f (st.tname :: signature))).map (·.2)))
    | none => pure none
  let initCond :=
    match row.initcond with
    | some (.blob bytes) => some bytes
    | _ => none
  pure
    { fullName := fullFunctionName name signature
      simpleName := name
      argTypes := argTypes
      returnType := returnType
      stateType := stateType
      stateFunc := stateFunc
      finalFunc := finalFunc
      initCond := initCond }

/-- `UserType` (keyspace-qualified, ordered fields). -/
structure UserTypeT where
  keyspace : String
  tname : String
  fields : List (String × DTy)
  deriving DecidableEq, Repr

/-- Field-pair loop of `Metadata::InternalData::update_user_types`:
names drive the iteration; the loop breaks when the type list is
exhausted or either element is null, keeping the pairs read so far. -/
def buildUserTypeFields : List (Option String) → List (Option String) →
    List (String × DTy)
  | [], _ => []
  | _ :: _, [] => []
  | none :: _, _ => []
  | some _ :: _, none :: _ => []
  | some n :: ns, some ty :: ts => (n, parseOne ty) :: buildUserTypeFields ns ts

/-- Table-object identity: `SharedRefPtr<TableMetadata>` modelled as an
index into an explicit heap, because `update_columns` mutates table
objects in place while snapshots may still reference them. -/
abbrev TableId := Nat

/-- The heap of `TableMetadata` objects.  Mutation shadows the previous
entry; `heapGet` reads the most recent one. -/
abbrev Heap := List (TableId × TableT)

/-- Read a table object. -/
def heapGet (h : Heap) (id : TableId) : Option TableT :=
  (h.find? (fun p => p.1 = id)).map (·.2)

/-- Write (shadow) a table object. -/
def heapSet (h : Heap) (id : TableId) (t : TableT) : Heap :=
  (id, t) :: h

/-- `KeyspaceMetadata`: per-keyspace collections.  Tables are held by
reference (heap ids); user types, functions and aggregates are held by
value since their objects are never mutated after construction.
Modelled from the spec: the four collections sit behind `CopyOnWritePtr`
wrappers (`copy_on_write_ptr.hpp`, not under the verified sources);
per the specification a structural mutation clones the container before
mutating, so plain value semantics is their observable behaviour. -/
structure KeyspaceT where
  kname : String
  fields : List (String × String)
  tables : List (String × TableId)
  userTypes : List (String × UserTypeT)
  functions : List (String × FunctionT)
  aggregates : List (String × AggT)
  deriving DecidableEq, Repr

/-- A fresh `KeyspaceMetadata(name)`. -/
def emptyKeyspace (name : String) : KeyspaceT :=
  { kname := name, fields := [], tables := [], userTypes := [],
    functions := [], aggregates := [] }

/-- A fresh `TableMetadata(name)` as made by `get_or_create_table`. -/
def emptyTable (name : String) : TableT :=
  { tname := name, fields := [], keyAliases := [], columnAliases := [],
    keyValidator := { types := [], isComposite := false, collections := [] },
    comparator := { types := [], isComposite := false, collections := [] },
    columns := [], partitionKey := [], clusteringKey := [] }

/-! ## Catalog store (`Metadata` / `Metadata::InternalData`) -/

/-- The keyspace map of one generation.  Modelled from the spec: the map
sits behind a `CopyOnWritePtr` (not under the verified sources); per the
specification, a handle given to a reader keeps its value while writers
clone before mutating, so the generation is a plain value here. -/
abbrev KsMap := List (String × KeyspaceT)

/-- Lookup in an association list keyed by name. -/
def assocFind (m : List (String × β)) (k : String) : Option β :=
  (m.find? (fun p => p.1 = k)).map (·.2)

/-- `map[k] = v`: replace the binding if present, append otherwise. -/
def assocSet (m : List (String × β)) (k : String) (v : β) : List (String × β) :=
  if (m.find? (fun p => p.1 = k)).isSome then
    m.map (fun p => if p.1 = k then (k, v) else p)
  else m ++ [(k, v)]

/-- `map.erase(k)`. -/
def assocErase (m : List (String × β)) (k : String) : List (String × β) :=
  m.filter (fun p => p.1 ≠ k)

/-- `Metadata::InternalData::get_or_create_keyspace` (the creating half). -/
def ksEnsure (m : KsMap) (name : String) : KsMap :=
  if (m.find? (fun p => p.1 = name)).isSome then m
  else m ++ [(name, emptyKeyspace name)]

/-- Apply `f` to the keyspace bound to `name` (no-op when absent). -/
def ksModify (m : KsMap) (name : String) (f : KeyspaceT → KeyspaceT) : KsMap :=
  m.map (fun p => if p.1 = name then (p.1, f p.2) else p)

/-- Row of a `system.schema_keyspaces` result, with the decoded fields
the catalog stores (`get_string_by_name` failure is `none`). -/
structure KsRow where
  keyspace_name : Option String := none
  fields : List (String × String) := []
  deriving DecidableEq, Repr

/-- Row of a `system.schema_columnfamilies` result.  The JSON-list and
type-string fields arrive pre-decoded (JSON decoding and `TypeParser`
are external collaborators). -/
structure TabRow where
  keyspace_name : Option String := none
  columnfamily_name : Option String := none
  fields : List (String × String) := []
  keyAliases : List String := []
  columnAliases : List String := []
  keyValidator : ParseRes := { types := [], isComposite := false, collections := [] }
  comparator : ParseRes := { types := [], isComposite := false, collections := [] }
  deriving DecidableEq, Repr

/-- Row of a `system.schema_columns` result. -/
structure ColRow where
  keyspace_name : Option String := none
  columnfamily_name : Option String := none
  column_name : Option String := none
  typeStr : Option String := none
  componentIndex : Option Int := none
  dataType : Option DTy := none
  isReversed : Bool := false
  deriving DecidableEq, Repr

/-- Row of a user-type result. -/
structure UTRow where
  keyspace_name : Option String := none
  type_name : Option String := none
  field_names : Option (List (Option String)) := none
  field_types : Option (List (Option String)) := none
  deriving DecidableEq, Repr

/-- Row of a functions result. -/
structure FunRow where
  keyspace_name : Option String := none
  function_name : Option String := none
  signature : Option (List String) := none
  data : FunRowData := {}
  deriving DecidableEq, Repr

/-- Row of an aggregates result. -/
structure AggRow where
  keyspace_name : Option String := none
  aggregate_name : Option String := none
  signature : Option (List String) := none
  data : AggRowData := {}
  deriving DecidableEq, Repr

/-- `ColumnMetadata::ColumnMetadata(name, version, buffer, row)`. -/
def columnFromRow (name : String) (r : ColRow) : ColumnT :=
  { cname := name
    ctype :=
      match r.typeStr with
      | some "partition_key" => .partitionKey
      | some "clustering_key" => .clusteringKey
      | some "static" => .staticCol
      | _ => .regular
    position := r.componentIndex.getD 0
    dataType := r.dataType
    isReversed := r.isReversed }

/-- `TableMetadata::TableMetadata(name, version, buffer, row)`. -/
def tableFromRow (name : String) (r : TabRow) : TableT :=
  { tname := name, fields := r.fields, keyAliases := r.keyAliases,
    columnAliases := r.columnAliases, keyValidator := r.keyValidator,
    comparator := r.comparator, columns := [], partitionKey := [],
    clusteringKey := [] }

/-- `KeyspaceMetadata::add_table` (binding a name to a table object). -/
def addTableK (k : KeyspaceT) (cf : String) (id : TableId) : KeyspaceT :=
  { k with tables := assocSet k.tables cf id }

/-- `KeyspaceMetadata::add_user_type`. -/
def addUserTypeK (k : KeyspaceT) (ut : UserTypeT) : KeyspaceT :=
  { k with userTypes := assocSet k.userTypes ut.tname ut }

/-- `KeyspaceMetadata::add_function` (keyed by canonical full name). -/
def addFunctionK (k : KeyspaceT) (f : FunctionT) : KeyspaceT :=
  { k with functions := assocSet k.functions f.fullName f }

/-- `KeyspaceMetadata::add_aggregate` (keyed by canonical full name). -/
def addAggregateK (k : KeyspaceT) (ag : AggT) : KeyspaceT :=
  { k with aggregates := assocSet k.aggregates ag.fullName ag }

/-- Result of an `InternalData` mutation that may allocate or mutate
table objects. -/
structure DataRes where
  m : KsMap
  h : Heap
  nid : Nat
  deriving DecidableEq, Repr

/-- In-place `clear_columns()` on the table object `id`. -/
def clearAt (h : Heap) (id : TableId) : Heap :=
  match heapGet h id with
  | some t => heapSet h id (clearColumnsT t)
  | none => h

/-- In-place `add_column` on the table object `id`. -/
def addColAt (h : Heap) (id : TableId) (c : ColumnT) : Heap :=
  match heapGet h id with
  | some t => heapSet h id (addColumnT t c)
  | none => h

/-- In-place `build_keys_and_sort` on the table object `id`. -/
def buildAt (cassMajor : Int) (h : Heap) (id : TableId) : Heap :=
  match heapGet h id with
  | some t => heapSet h id (buildKeysAndSort cassMajor t)
  | none => h

/-- `KeyspaceMetadata::update`: merge the row's decoded fields into the
keyspace's field map. -/
def keyspaceUpdate (r : KsRow) (k : KeyspaceT) : KeyspaceT :=
  { k with fields := r.fields.foldl (fun fs p => assocSet fs p.1 p.2) k.fields }

/-- `Metadata::InternalData::update_keyspaces`: rows missing
`keyspace_name` are logged and skipped; otherwise the keyspace is
created on demand and its fields updated. -/
def dataUpdateKeyspaces (rows : List KsRow) (m : KsMap) : KsMap :=
  rows.foldl
    (fun m r =>
      match r.keyspace_name with
      | none => m
      | some ks => ksModify (ksEnsure m ks) ks (keyspaceUpdate r))
    m

/-- Row loop of `InternalData::update_tables` over the tables result.
`curKs` models the `keyspace_name` local, `acq` whether the `keyspace`
pointer has been acquired.  On a keyspace-name change the keyspace is
acquired (created on demand) and the row's table is always added; with
an unchanged name the add needs the previously acquired pointer — a
first row whose keyspace name equals the initial empty string
dereferences the null `keyspace` pointer (`none`). -/
def tablesLoop : List TabRow → KsMap → Heap → Nat → String → Bool → Option DataRes
  | [], m, h, nid, _, _ => some ⟨m, h, nid⟩
  | r :: rest, m, h, nid, curKs, acq =>
    match r.keyspace_name, r.columnfamily_name with
    | some ks, some cf =>
      if ks ≠ curKs then
        tablesLoop rest
          (ksModify (ksEnsure m ks) ks (fun k => addTableK k cf nid))
          (heapSet h nid (tableFromRow cf r)) (nid + 1) ks true
      else if acq then
        tablesLoop rest
          (ksModify m curKs (fun k => addTableK k cf nid))
          (heapSet h nid (tableFromRow cf r)) (nid + 1) curKs acq
      else none
    | _, _ => tablesLoop rest m h nid curKs acq

/-- Result of processing one column row against the acquired keyspace. -/
structure ColStepRes where
  m : KsMap
  h : Heap
  nid : Nat
  cf : String
  tbl : Option TableId
  deriving DecidableEq, Repr

/-- The table-switch step inside the row: `keyspace->get_or_create_table`
on the already-acquired keyspace, `clear_columns` on the obtained
(possibly shared) object, and `add_column` for the row's column.  `none`
is the unreachable case of a vanished keyspace (the acquired pointer
would still be valid in C++; the keyspace is never erased inside the
loop). -/
def tableSwitch (m : KsMap) (h1 : Heap) (nid : Nat) (ks cf : String) (c : ColumnT) :
    Option ColStepRes :=
  match assocFind m ks with
  | some k =>
    match assocFind k.tables cf with
    | some id => some ⟨m, addColAt (clearAt h1 id) id c, nid, cf, some id⟩
    | none =>
      some ⟨ksModify m ks (fun k2 => addTableK k2 cf nid),
            addColAt (clearAt (heapSet h1 nid (emptyTable cf)) nid) nid c,
            nid + 1, cf, some nid⟩
  | none => none

/-- Effect of one `update_columns` row once the keyspace `ks` has been
acquired.  On a table-name change the previous table's keys are built
and the table switch runs; otherwise the row's column is appended to the
current table object (`none`: the `table` pointer is null). -/
def colRowEffect (maj : Int) (m : KsMap) (h : Heap) (nid : Nat) (ks : String)
    (curCf : String) (tbl : Option TableId) (cf col : String) (r : ColRow) :
    Option ColStepRes :=
  if cf ≠ curCf then
    match tbl with
    | some id => tableSwitch m (buildAt maj h id) nid ks cf (columnFromRow col r)
    | none => tableSwitch m h nid ks cf (columnFromRow col r)
  else
    match tbl with
    | some id => some ⟨m, addColAt h id (columnFromRow col r), nid, curCf, tbl⟩
    | none => none

/-- Row loop of `InternalData::update_columns`.  The trailing
`build_keys_and_sort` for the last table happens in the base case; a row
reaching a use of the null `keyspace` (on a table change) or of the null
`table` pointer faults. -/
def columnsLoop (maj : Int) :
    List ColRow → KsMap → Heap → Nat → String → Bool → String → Option TableId →
    Option DataRes
  | [], m, h, nid, _, _, _, tbl =>
    match tbl with
    | some id => some ⟨m, buildAt maj h id, nid⟩
    | none => some ⟨m, h, nid⟩
  | r :: rest, m, h, nid, curKs, acq, curCf, tbl =>
    match r.keyspace_name, r.columnfamily_name, r.column_name with
    | some ks, some cf, some col =>
      if ks ≠ curKs then
        match colRowEffect maj (ksEnsure m ks) h nid ks curCf tbl cf col r with
        | some res => columnsLoop maj rest res.m res.h res.nid ks true res.cf res.tbl
        | none => none
      else if acq then
        match colRowEffect maj m h nid curKs curCf tbl cf col r with
        | some res => columnsLoop maj rest res.m res.h res.nid curKs acq res.cf res.tbl
        | none => none
      else
        -- null keyspace pointer: a table change dereferences it; otherwise the
        -- row is appended to the current table (null table pointer: fault)
        if cf ≠ curCf then none
        else
          match tbl with
          | some id =>
            columnsLoop maj rest m (addColAt h id (columnFromRow col r)) nid curKs acq
              curCf tbl
          | none => none
    | _, _, _ => columnsLoop maj rest m h nid curKs acq curCf tbl

/-- `Metadata::InternalData::update_tables` (tables result then the
column result via `update_columns`). -/
def dataUpdateTables (maj : Int) (tabRows : List TabRow) (colRows : List ColRow)
    (m : KsMap) (h : Heap) (nid : Nat) : Option DataRes :=
  (tablesLoop tabRows m h nid "" false).bind
    (fun d => columnsLoop maj colRows d.m d.h d.nid "" false "" none)

/-- The user type a row denotes (built after the keyspace is acquired). -/
def userTypeFromRow (ks tn : String) (names types : List (Option String)) : UserTypeT :=
  { keyspace := ks, tname := tn, fields := buildUserTypeFields names types }

/-- Row loop of `InternalData::update_user_types`: the keyspace is
acquired (created on demand) before the `field_names` / `field_types`
null checks, which merely skip the row; the final `add_user_type`
dereferences the keyspace pointer (null on a first row whose keyspace
name equals the initial empty string). -/
def userTypesLoop : List UTRow → KsMap → String → Bool → Option KsMap
  | [], m, _, _ => some m
  | r :: rest, m, curKs, acq =>
    match r.keyspace_name, r.type_name with
    | some ks, some tn =>
      if ks ≠ curKs then
        match r.field_names, r.field_types with
        | some names, some types =>
          userTypesLoop rest
            (ksModify (ksEnsure m ks) ks
              (fun k => addUserTypeK k (userTypeFromRow ks tn names types)))
            ks true
        | _, _ => userTypesLoop rest (ksEnsure m ks) ks true
      else if acq then
        match r.field_names, r.field_types with
        | some names, some types =>
          userTypesLoop rest
            (ksModify m curKs
              (fun k => addUserTypeK k (userTypeFromRow ks tn names types)))
            curKs acq
        | _, _ => userTypesLoop rest m curKs acq
      else
        match r.field_names, r.field_types with
        | some _, some _ => none
        | _, _ => userTypesLoop rest m curKs acq
    | _, _ => userTypesLoop rest m curKs acq

/-- Row loop of `InternalData::update_functions`; functions are keyed by
their canonical full name. -/
def functionsLoop : List FunRow → KsMap → String → Bool → Option KsMap
  | [], m, _, _ => some m
  | r :: rest, m, curKs, acq =>
    match r.keyspace_name, r.function_name, r.signature with
    | some ks, some fn, some sig =>
      if ks ≠ curKs then
        functionsLoop rest
          (ksModify (ksEnsure m ks) ks
            (fun k => addFunctionK k (functionConstruct fn sig r.data)))
          ks true
      else if acq then
        functionsLoop rest
          (ksModify m curKs
            (fun k => addFunctionK k (functionConstruct fn sig r.data)))
          curKs acq
      else none
    | _, _, _ => functionsLoop rest m curKs acq

/-- Row loop of `InternalData::update_aggregates`; state/final functions
are resolved against the keyspace's already-loaded function map, and a
fault in `AggregateMetadata`'s constructor propagates. -/
def aggregatesLoop : List AggRow → KsMap → String → Bool → Option KsMap
  | [], m, _, _ => some m
  | r :: rest, m, curKs, acq =>
    match r.keyspace_name, r.aggregate_name, r.signature with
    | some ks, some an, some sig =>
      if ks ≠ curKs then
        match assocFind (ksEnsure m ks) ks with
        | some k =>
          match aggregateConstruct an sig k.functions r.data with
          | some ag =>
            aggregatesLoop rest
              (ksModify (ksEnsure m ks) ks (fun k2 => addAggregateK k2 ag))
              ks true
          | none => none
        | none => none
      else if acq then
        match assocFind m curKs with
        | some k =>
          match aggregateConstruct an sig k.functions r.data with
          | some ag =>
            aggregatesLoop rest
              (ksModify m curKs (fun k2 => addAggregateK k2 ag))
              curKs acq
          | none => none
        | none => none
      else none
    | _, _, _ => aggregatesLoop rest m curKs acq

/-- `InternalData::drop_keyspace`. -/
def dataDropKeyspace (m : KsMap) (ks : String) : KsMap :=
  assocErase m ks

/-- `InternalData::drop_table`. -/
def dataDropTable (m : KsMap) (ks t : String) : KsMap :=
  ksModify m ks (fun k => { k with tables := assocErase k.tables t })

/-- `InternalData::drop_user_type`. -/
def dataDropUserType (m : KsMap) (ks tn : String) : KsMap :=
  ksModify m ks (fun k => { k with userTypes := assocErase k.userTypes tn })

/-- `InternalData::drop_function`. -/
def dataDropFunction (m : KsMap) (ks fn : String) : KsMap :=
  ksModify m ks (fun k => { k with functions := assocErase k.functions fn })

/-- `InternalData::drop_aggregate`. -/
def dataDropAggregate (m : KsMap) (ks an : String) : KsMap :=
  ksModify m ks (fun k => { k with aggregates := assocErase k.aggregates an })

/-- The catalog (`Metadata`): two generations sharing the table heap,
the updating selector, the `uint32_t` version counter and the server
version configuration. -/
structure MetaState where
  front : KsMap
  back : KsMap
  heap : Heap
  nextId : Nat
  updatingFront : Bool
  version : Nat
  protocolVersion : Int
  cassMajor : Int
  deriving DecidableEq, Repr

/-- `Metadata()` initial state. -/
def initMetadata : MetaState :=
  { front := [], back := [], heap := [], nextId := 0, updatingFront := true,
    version := 0, protocolVersion := 0, cassMajor := 0 }

/-- `schema_snapshot_version_++` on a `uint32_t`. -/
def bumpVersion (v : Nat) : Nat :=
  (v + 1) % 4294967296

/-- `Metadata::SchemaSnapshot`. -/
structure SnapshotT where
  version : Nat
  protocolVersion : Int
  keyspaces : KsMap
  deriving DecidableEq, Repr

/-- `Metadata::schema_snapshot()`.  Modelled from the spec: the returned
CoW handle to the front generation keeps the value it was given while
later structural mutations clone before writing, so the snapshot simply
captures the front map's value. -/
def schemaSnapshot (s : MetaState) : SnapshotT :=
  { version := s.version, protocolVersion := s.protocolVersion, keyspaces := s.front }

/-- The generation incremental updates currently target. -/
def updatingMap (s : MetaState) : KsMap :=
  if s.updatingFront then s.front else s.back

/-- Store the mutated generation back into the state. -/
def applyToUpdating (s : MetaState) (m : KsMap) : MetaState :=
  if s.updatingFront then { s with front := m } else { s with back := m }

/-- The mutating entry points of `Metadata`. -/
inductive MutOp where
  | updateKeyspaces (rows : List KsRow)
  | updateTables (tabRows : List TabRow) (colRows : List ColRow)
  | updateUserTypes (rows : List UTRow)
  | updateFunctions (rows : List FunRow)
  | updateAggregates (rows : List AggRow)
  | dropKeyspace (ks : String)
  | dropTable (ks t : String)
  | dropUserType (ks tn : String)
  | dropFunction (ks fn : String)
  | dropAggregate (ks an : String)
  | clearAndUpdateBack
  | swapToBackAndUpdateFront
  | clear
  deriving DecidableEq, Repr

/-- The update/drop operations (the incremental mutations of claim C4). -/
def MutOp.isUpdateOrDrop : MutOp → Bool
  | .updateKeyspaces _ => true
  | .updateTables _ _ => true
  | .updateUserTypes _ => true
  | .updateFunctions _ => true
  | .updateAggregates _ => true
  | .dropKeyspace _ => true
  | .dropTable _ _ => true
  | .dropUserType _ _ => true
  | .dropFunction _ _ => true
  | .dropAggregate _ _ => true
  | _ => false

/-- `Metadata::clear_and_update_back()`: clear the back generation and
redirect incremental updates to it (the token map is external). -/
def clearAndUpdateBack (s : MetaState) : MetaState :=
  { s with back := [], updatingFront := false }

/-- `Metadata::swap_to_back_and_update_front()`.  `InternalData::swap`
assigns `other.keyspaces_` to both handles (its `temp` round-trip
restores `other`'s own value), so the front handle ends up sharing the
back generation; the subsequent `back_.clear()` detaches the now-shared
map (CoW, modelled from the spec) and empties only the back's copy.
The net observable effect is `front := back; back := ∅`. -/
def swapToBackAndUpdateFront (s : MetaState) : MetaState :=
  { s with
    version := bumpVersion s.version
    front := s.back
    back := []
    updatingFront := true }

/-- `Metadata::clear()`: version reset to 0, both generations cleared. -/
def clearMetadata (s : MetaState) : MetaState :=
  { s with version := 0, front := [], back := [] }

/-- One mutating call on the catalog; `none` models a crash (null
dereference inside the call). The version counter is bumped by every
update/drop and by the generation swap, before the row processing. -/
def step : MutOp → MetaState → Option MetaState
  | .updateKeyspaces rows, s =>
    some (applyToUpdating { s with version := bumpVersion s.version }
      (dataUpdateKeyspaces rows (updatingMap s)))
  | .updateTables tabRows colRows, s =>
    (dataUpdateTables s.cassMajor tabRows colRows (updatingMap s) s.heap s.nextId).map
      (fun d => applyToUpdating
        { s with version := bumpVersion s.version, heap := d.h, nextId := d.nid } d.m)
  | .updateUserTypes rows, s =>
    (userTypesLoop rows (updatingMap s) "" false).map
      (fun m => applyToUpdating { s with version := bumpVersion s.version } m)
  | .updateFunctions rows, s =>
    (functionsLoop rows (updatingMap s) "" false).map
      (fun m => applyToUpdating { s with version := bumpVersion s.version } m)
  | .updateAggregates rows, s =>
    (aggregatesLoop rows (updatingMap s) "" false).map
      (fun m => applyToUpdating { s with version := bumpVersion s.version } m)
  | .dropKeyspace ks, s =>
    some (applyToUpdating { s with version := bumpVersion s.version }
      (dataDropKeyspace (updatingMap s) ks))
  | .dropTable ks t, s =>
    some (applyToUpdating { s with version := bumpVersion s.version }
      (dataDropTable (updatingMap s) ks t))
  | .dropUserType ks tn, s =>
    some (applyToUpdating { s with version := bumpVersion s.version }
      (dataDropUserType (updatingMap s) ks tn))
  | .dropFunction ks fn, s =>
    some (applyToUpdating { s with version := bumpVersion s.version }
      (dataDropFunction (updatingMap s) ks fn))
  | .dropAggregate ks an, s =>
    some (applyToUpdating { s with version := bumpVersion s.version }
      (dataDropAggregate (updatingMap s) ks an))
  | .clearAndUpdateBack, s => some (clearAndUpdateBack s)
  | .swapToBackAndUpdateFront, s => some (swapToBackAndUpdateFront s)
  | .clear, s => some (clearMetadata s)

/-- A sequence of mutating calls. -/
def foldSteps : List MutOp → MetaState → Option MetaState
  | [], s => some s
  | op :: rest, s => (step op s).bind (foldSteps rest)

/-- Contents of a generation as observed through a snapshot or through
the live catalog: each keyspace paired with the current state of every
table object it references. -/
def observeKs (h : Heap) (m : KsMap) :
    List (String × KeyspaceT × List (String × Option TableT)) :=
  m.map (fun p => (p.1, p.2, p.2.tables.map (fun q => (q.1, heapGet h q.2))))

/-- All table ids referenced by a keyspace map. -/
def mapIds (m : KsMap) : List TableId :=
  m.flatMap (fun p => p.2.tables.map (·.2))

/-- Well-formedness of a catalog state: every referenced or allocated
table id is below the allocation counter.  This holds for every state
reachable from `initMetadata`. -/
def WF (s : MetaState) : Prop :=
  (∀ id ∈ mapIds s.front, id < s.nextId) ∧
  (∀ id ∈ mapIds s.back, id < s.nextId) ∧
  (∀ p ∈ s.heap, p.1 < s.nextId)

/-! ## Basic lemmas about the state combinators -/

@[simp] theorem applyToUpdating_version (s : MetaState) (m : KsMap) :
    (applyToUpdating s m).version = s.version := by
  unfold applyToUpdating; split <;> rfl

@[simp] theorem applyToUpdating_heap (s : MetaState) (m : KsMap) :
    (applyToUpdating s m).heap = s.heap := by
  unfold applyToUpdating; split <;> rfl

@[simp] theorem applyToUpdating_nextId (s : MetaState) (m : KsMap) :
    (applyToUpdating s m).nextId = s.nextId := by
  unfold applyToUpdating; split <;> rfl

@[simp] theorem applyToUpdating_updatingFront (s : MetaState) (m : KsMap) :
    (applyToUpdating s m).updatingFront = s.updatingFront := by
  unfold applyToUpdating; split <;> rfl

@[simp] theorem applyToUpdating_cassMajor (s : MetaState) (m : KsMap) :
    (applyToUpdating s m).cassMajor = s.cassMajor := by
  unfold applyToUpdating; split <;> rfl

theorem applyToUpdating_front_of_back (s : MetaState) (m : KsMap)
    (h : s.updatingFront = false) : (applyToUpdating s m).front = s.front := by
  unfold applyToUpdating; rw [h]; rfl

theorem applyToUpdating_back_of_back (s : MetaState) (m : KsMap)
    (h : s.updatingFront = false) : (applyToUpdating s m).back = m := by
  unfold applyToUpdating; rw [h]; rfl

theorem updatingMap_of_back (s : MetaState) (h : s.updatingFront = false) :
    updatingMap s = s.back := by
  unfold updatingMap; rw [h]; rfl

/-! ## Heap and keyspace-map lemmas (for the rebuild-atomicity proof) -/

theorem heapGet_heapSet_ne (h : Heap) (j : TableId) (t : TableT) (id : TableId)
    (hne : id ≠ j) : heapGet (heapSet h j t) id = heapGet h id := by
  have : ((j, t).1 = id) = False := by simp [Ne.symm hne]
  simp [heapGet, heapSet, List.find?, this]

theorem mem_heapSet (h : Heap) (j : TableId) (t : TableT) (p : TableId × TableT)
    (hp : p ∈ heapSet h j t) : p = (j, t) ∨ p ∈ h := by
  simpa [heapSet] using hp

theorem heapGet_clearAt_ne (h : Heap) (id j : TableId) (hne : j ≠ id) :
    heapGet (clearAt h id) j = heapGet h j := by
  unfold clearAt
  split
  · exact heapGet_heapSet_ne _ _ _ _ hne
  · rfl

theorem heapGet_addColAt_ne (h : Heap) (id : TableId) (c : ColumnT) (j : TableId)
    (hne : j ≠ id) : heapGet (addColAt h id c) j = heapGet h j := by
  unfold addColAt
  split
  · exact heapGet_heapSet_ne _ _ _ _ hne
  · rfl

theorem heapGet_buildAt_ne (maj : Int) (h : Heap) (id j : TableId) (hne : j ≠ id) :
    heapGet (buildAt maj h id) j = heapGet h j := by
  unfold buildAt
  split
  · exact heapGet_heapSet_ne _ _ _ _ hne
  · rfl

theorem mem_clearAt (h : Heap) (id : TableId) (p : TableId × TableT)
    (hp : p ∈ clearAt h id) : p.1 = id ∨ p ∈ h := by
  unfold clearAt at hp
  split at hp
  · rcases mem_heapSet _ _ _ _ hp with h1 | h1
    · left; rw [h1]
    · right; exact h1
  · right; exact hp

theorem mem_addColAt (h : Heap) (id : TableId) (c : ColumnT) (p : TableId × TableT)
    (hp : p ∈ addColAt h id c) : p.1 = id ∨ p ∈ h := by
  unfold addColAt at hp
  split at hp
  · rcases mem_heapSet _ _ _ _ hp with h1 | h1
    · left; rw [h1]
    · right; exact h1
  · right; exact hp

theorem mem_buildAt (maj : Int) (h : Heap) (id : TableId) (p : TableId × TableT)
    (hp : p ∈ buildAt maj h id) : p.1 = id ∨ p ∈ h := by
  unfold buildAt at hp
  split at hp
  · rcases mem_heapSet _ _ _ _ hp with h1 | h1
    · left; rw [h1]
    · right; exact h1
  · right; exact hp

theorem mem_assocSet {β : Type} (l : List (String × β)) (k : String) (v : β)
    (p : String × β) (hp : p ∈ assocSet l k v) : p ∈ l ∨ p = (k, v) := by
  unfold assocSet at hp
  split at hp
  · rcases List.mem_map.mp hp with ⟨q, hq, hqe⟩
    by_cases hqk : q.1 = k
    · rw [if_pos hqk] at hqe
      right; exact hqe.symm
    · rw [if_neg hqk] at hqe
      left; exact hqe ▸ hq
  · rcases List.mem_append.mp hp with h1 | h1
    · left; exact h1
    · right; simpa using h1

theorem mapIds_ksEnsure (m : KsMap) (n : String) :
    mapIds (ksEnsure m n) = mapIds m := by
  unfold ksEnsure
  split
  · rfl
  · simp [mapIds, emptyKeyspace]

theorem mem_mapIds_ksModify {P : TableId → Prop} (m : KsMap) (n : String)
    (f : KeyspaceT → KeyspaceT)
    (hf : ∀ k, ∀ id, id ∈ (f k).tables.map (·.2) → id ∈ k.tables.map (·.2) ∨ P id) :
    ∀ id ∈ mapIds (ksModify m n f), id ∈ mapIds m ∨ P id := by
  intro id hid
  rcases List.mem_flatMap.mp hid with ⟨p, hp, hidp⟩
  rcases List.mem_map.mp hp with ⟨q, hq, hqe⟩
  by_cases hqn : q.1 = n
  · rw [if_pos hqn] at hqe
    subst hqe
    rcases hf q.2 id hidp with h1 | h1
    · left; exact List.mem_flatMap.mpr ⟨q, hq, h1⟩
    · right; exact h1
  · rw [if_neg hqn] at hqe
    subst hqe
    left; exact List.mem_flatMap.mpr ⟨q, hq, hidp⟩

theorem mapIds_ksModify_eq (m : KsMap) (n : String) (f : KeyspaceT → KeyspaceT)
    (hf : ∀ k, (f k).tables = k.tables) : mapIds (ksModify m n f) = mapIds m := by
  induction m with
  | nil => rfl
  | cons p rest ih =>
    unfold ksModify at ih ⊢
    simp only [List.map_cons, mapIds, List.flatMap_cons] at ih ⊢
    rw [ih]
    congr 1
    split
    · rw [hf]
    · rfl

theorem mem_tables_addTableK (k : KeyspaceT) (cf : String) (j : TableId)
    (id : TableId) (hid : id ∈ (addTableK k cf j).tables.map (·.2)) :
    id ∈ k.tables.map (·.2) ∨ id = j := by
  rcases List.mem_map.mp hid with ⟨p, hp, hpe⟩
  rcases mem_assocSet _ _ _ _ hp with h1 | h1
  · left; exact hpe ▸ List.mem_map_of_mem _ h1
  · right; rw [← hpe, h1]

theorem mem_mapIds_of_assocFind (m : KsMap) (ks : String) (k : KeyspaceT)
    (hk : assocFind m ks = some k) (id : TableId)
    (hid : id ∈ k.tables.map (·.2)) : id ∈ mapIds m := by
  unfold assocFind at hk
  rcases Option.map_eq_some'.mp hk with ⟨p, hp, hpe⟩
  exact List.mem_flatMap.mpr ⟨p, List.mem_of_find?_eq_some hp, hpe ▸ hid⟩

theorem mapIds_addUserType (m : KsMap) (n : String) (ut : UserTypeT) :
    mapIds (ksModify m n (fun k => addUserTypeK k ut)) = mapIds m :=
  mapIds_ksModify_eq _ _ _ (fun _ => rfl)

theorem mapIds_addFunction (m : KsMap) (n : String) (f : FunctionT) :
    mapIds (ksModify m n (fun k => addFunctionK k f)) = mapIds m :=
  mapIds_ksModify_eq _ _ _ (fun _ => rfl)

theorem mapIds_addAggregate (m : KsMap) (n : String) (ag : AggT) :
    mapIds (ksModify m n (fun k => addAggregateK k ag)) = mapIds m :=
  mapIds_ksModify_eq _ _ _ (fun _ => rfl)

theorem mem_mapIds_assocErase (m : KsMap) (n : String) :
    ∀ id ∈ mapIds (assocErase m n), id ∈ mapIds m := by
  intro id hid
  rcases List.mem_flatMap.mp hid with ⟨p, hp, hidp⟩
  exact List.mem_flatMap.mpr ⟨p, List.mem_of_mem_filter hp, hidp⟩

theorem mem_mapIds_dropTable (m : KsMap) (ks t : String) :
    ∀ id ∈ mapIds (dataDropTable m ks t), id ∈ mapIds m := by
  intro id hid
  have := mem_mapIds_ksModify (P := fun _ => False) m ks _
    (fun k id2 hid2 => by
      rcases List.mem_map.mp hid2 with ⟨p, hp, hpe⟩
      exact Or.inl (hpe ▸ List.mem_map_of_mem _ (List.mem_of_mem_filter hp)))
    id hid
  tauto

theorem mapIds_dropUserType (m : KsMap) (ks tn : String) :
    mapIds (dataDropUserType m ks tn) = mapIds m :=
  mapIds_ksModify_eq _ _ _ (fun _ => rfl)

theorem mapIds_dropFunction (m : KsMap) (ks fn : String) :
    mapIds (dataDropFunction m ks fn) = mapIds m :=
  mapIds_ksModify_eq _ _ _ (fun _ => rfl)

theorem mapIds_dropAggregate (m : KsMap) (ks an : String) :
    mapIds (dataDropAggregate m ks an) = mapIds m :=
  mapIds_ksModify_eq _ _ _ (fun _ => rfl)

/-! ### Table-id footprint of the row loops -/

theorem mapIds_dataUpdateKeyspaces (rows : List KsRow) :
    ∀ m, mapIds (dataUpdateKeyspaces rows m) = mapIds m := by
  induction rows with
  | nil => intro m; rfl
  | cons r rest ih =>
    intro m
    unfold dataUpdateKeyspaces at ih ⊢
    rw [List.foldl_cons, ih]
    cases hks : r.keyspace_name
    · rfl
    · rw [mapIds_ksModify_eq _ _ (keyspaceUpdate r) (fun _ => rfl), mapIds_ksEnsure]

theorem userTypesLoop_mapIds (rows : List UTRow) :
    ∀ m ks acq m2, userTypesLoop rows m ks acq = some m2 → mapIds m2 = mapIds m := by
  induction rows with
  | nil =>
    intro m ks acq m2 h
    simp only [userTypesLoop, Option.some_inj] at h
    rw [← h]
  | cons r rest ih =>
    intro m ks acq m2 h
    unfold userTypesLoop at h
    repeat' split at h
    all_goals first
      | exact absurd h (by simp)
      | exact ih _ _ _ _ h
      | (rw [ih _ _ _ _ h]
         simp only [mapIds_addUserType, mapIds_ksEnsure])

theorem functionsLoop_mapIds (rows : List FunRow) :
    ∀ m ks acq m2, functionsLoop rows m ks acq = some m2 → mapIds m2 = mapIds m := by
  induction rows with
  | nil =>
    intro m ks acq m2 h
    simp only [functionsLoop, Option.some_inj] at h
    rw [← h]
  | cons r rest ih =>
    intro m ks acq m2 h
    unfold functionsLoop at h
    repeat' split at h
    all_goals first
      | exact absurd h (by simp)
      | exact ih _ _ _ _ h
      | (rw [ih _ _ _ _ h]
         simp only [mapIds_addFunction, mapIds_ksEnsure])

theorem aggregatesLoop_mapIds (rows : List AggRow) :
    ∀ m ks acq m2, aggregatesLoop rows m ks acq = some m2 → mapIds m2 = mapIds m := by
  induction rows with
  | nil =>
    intro m ks acq m2 h
    simp only [aggregatesLoop, Option.some_inj] at h
    rw [← h]
  | cons r rest ih =>
    intro m ks acq m2 h
    unfold aggregatesLoop at h
    repeat' split at h
    all_goals first
      | exact absurd h (by simp)
      | exact ih _ _ _ _ h
      | (rw [ih _ _ _ _ h]
         simp only [mapIds_addAggregate, mapIds_ksEnsure])

theorem mapIds_addTable_bound (b nid : Nat) (M : KsMap) (ks cf : String)
    (hM : ∀ id ∈ mapIds M, b ≤ id ∧ id < nid) (hbn : b ≤ nid) :
    ∀ id ∈ mapIds (ksModify M ks (fun k => addTableK k cf nid)),
      b ≤ id ∧ id < nid + 1 := by
  intro id hid
  rcases mem_mapIds_ksModify (P := (· = nid)) _ _ _
      (fun k id2 hid2 => mem_tables_addTableK k cf nid id2 hid2) id hid with h1 | h1
  · rcases hM id h1 with ⟨h2, h3⟩
    exact ⟨h2, Nat.lt_succ_of_lt h3⟩
  · subst h1
    exact ⟨hbn, Nat.lt_succ_self _⟩

theorem heapSet_bound (h : Heap) (nid : Nat) (T : TableT)
    (hb : ∀ p ∈ h, p.1 < nid) : ∀ p ∈ heapSet h nid T, p.1 < nid + 1 := by
  intro p hp
  rcases mem_heapSet _ _ _ _ hp with h1 | h1
  · rw [h1]; exact Nat.lt_succ_self _
  · exact Nat.lt_succ_of_lt (hb p h1)

theorem tablesLoop_spec (b : Nat) (rows : List TabRow) :
    ∀ (m : KsMap) (h : Heap) (nid : Nat) (ks : String) (acq : Bool) (d : DataRes),
    tablesLoop rows m h nid ks acq = some d →
    (∀ id ∈ mapIds m, b ≤ id ∧ id < nid) → (∀ p ∈ h, p.1 < nid) → b ≤ nid →
    nid ≤ d.nid ∧
    (∀ id ∈ mapIds d.m, b ≤ id ∧ id < d.nid) ∧
    (∀ p ∈ d.h, p.1 < d.nid) ∧
    (∀ id, id < b → heapGet d.h id = heapGet h id) := by
  induction rows with
  | nil =>
    intro m h nid ks acq d hd hm hb hbn
    simp only [tablesLoop, Option.some_inj] at hd
    subst hd
    exact ⟨Nat.le_refl _, hm, hb, fun _ _ => rfl⟩
  | cons r rest ih =>
    intro m h nid ks acq d hd hm hb hbn
    unfold tablesLoop at hd
    repeat' split at hd
    all_goals first
      | exact absurd hd (by simp)
      | exact ih _ _ _ _ _ _ hd hm hb hbn
      | (rcases ih _ _ _ _ _ _ hd
            (mapIds_addTable_bound b nid _ _ _
              (fun id hid => hm id (by
                first
                  | exact hid
                  | rwa [mapIds_ksEnsure] at hid)) hbn)
            (heapSet_bound h nid _ hb) (Nat.le_succ_of_le hbn)
          with ⟨h1, h2, h3, h4⟩
         refine ⟨Nat.le_trans (Nat.le_succ _) h1, h2, h3, ?_⟩
         intro id hidb
         rw [h4 id hidb]
         exact heapGet_heapSet_ne _ _ _ _
           (Nat.ne_of_lt (Nat.lt_of_lt_of_le hidb hbn)))

theorem clearAt_bound (h : Heap) (id : TableId) (n : Nat)
    (hb : ∀ p ∈ h, p.1 < n) (hid : id < n) : ∀ p ∈ clearAt h id, p.1 < n := by
  intro p hp
  rcases mem_clearAt _ _ _ hp with h1 | h1
  · rw [h1]; exact hid
  · exact hb p h1

theorem addColAt_bound (h : Heap) (id : TableId) (c : ColumnT) (n : Nat)
    (hb : ∀ p ∈ h, p.1 < n) (hid : id < n) : ∀ p ∈ addColAt h id c, p.1 < n := by
  intro p hp
  rcases mem_addColAt _ _ _ _ hp with h1 | h1
  · rw [h1]; exact hid
  · exact hb p h1

theorem buildAt_bound (maj : Int) (h : Heap) (id : TableId) (n : Nat)
    (hb : ∀ p ∈ h, p.1 < n) (hid : id < n) : ∀ p ∈ buildAt maj h id, p.1 < n := by
  intro p hp
  rcases mem_buildAt _ _ _ _ hp with h1 | h1
  · rw [h1]; exact hid
  · exact hb p h1

theorem assocFind_mem_values {β : Type} (l : List (String × β)) (key : String) (v : β)
    (h : assocFind l key = some v) : v ∈ l.map (·.2) := by
  unfold assocFind at h
  rcases Option.map_eq_some'.mp h with ⟨p, hp, hpe⟩
  exact hpe ▸ List.mem_map_of_mem _ (List.mem_of_find?_eq_some hp)

theorem tableSwitch_spec (b : Nat) (m : KsMap) (h1 : Heap) (nid : Nat)
    (ks cf : String) (c : ColumnT) (res : ColStepRes)
    (hres : tableSwitch m h1 nid ks cf c = some res)
    (hm : ∀ id ∈ mapIds m, b ≤ id ∧ id < nid)
    (hb1 : ∀ p ∈ h1, p.1 < nid) (hbn : b ≤ nid) :
    nid ≤ res.nid ∧
    (∀ id ∈ mapIds res.m, b ≤ id ∧ id < res.nid) ∧
    (∀ p ∈ res.h, p.1 < res.nid) ∧
    (∀ j, j < b → heapGet res.h j = heapGet h1 j) ∧
    (∀ id0, res.tbl = some id0 → b ≤ id0 ∧ id0 < res.nid) := by
  unfold tableSwitch at hres
  split at hres
  · rename_i k hk
    split at hres
    · rename_i id hid
      have hidm : b ≤ id ∧ id < nid :=
        hm id (mem_mapIds_of_assocFind m ks k hk id (assocFind_mem_values _ _ _ hid))
      simp only [Option.some_inj] at hres
      subst hres
      refine ⟨Nat.le_refl _, hm, ?_, ?_, ?_⟩
      · exact addColAt_bound _ _ _ _ (clearAt_bound _ _ _ hb1 hidm.2) hidm.2
      · intro j hj
        have hne : j ≠ id := Nat.ne_of_lt (Nat.lt_of_lt_of_le hj hidm.1)
        rw [heapGet_addColAt_ne _ _ _ _ hne, heapGet_clearAt_ne _ _ _ hne]
      · intro id0 h0
        simp only [Option.some_inj] at h0
        exact h0 ▸ hidm
    · simp only [Option.some_inj] at hres
      subst hres
      refine ⟨Nat.le_succ _, mapIds_addTable_bound b nid m ks cf hm hbn, ?_, ?_, ?_⟩
      · exact addColAt_bound _ _ _ _
          (clearAt_bound _ _ _ (heapSet_bound _ _ _ hb1) (Nat.lt_succ_self _))
          (Nat.lt_succ_self _)
      · intro j hj
        have hne : j ≠ nid := Nat.ne_of_lt (Nat.lt_of_lt_of_le hj hbn)
        rw [heapGet_addColAt_ne _ _ _ _ hne, heapGet_clearAt_ne _ _ _ hne,
          heapGet_heapSet_ne _ _ _ _ hne]
      · intro id0 h0
        simp only [Option.some_inj] at h0
        subst h0
        exact ⟨hbn, Nat.lt_succ_self _⟩
  · exact absurd hres (by simp)

theorem colRowEffect_spec (b : Nat) (maj : Int) (m : KsMap) (h : Heap) (nid : Nat)
    (ks curCf : String) (tbl : Option TableId) (cf col : String) (r : ColRow)
    (res : ColStepRes)
    (hres : colRowEffect maj m h nid ks curCf tbl cf col r = some res)
    (hm : ∀ id ∈ mapIds m, b ≤ id ∧ id < nid)
    (hb : ∀ p ∈ h, p.1 < nid) (hbn : b ≤ nid)
    (htbl : ∀ id0, tbl = some id0 → b ≤ id0 ∧ id0 < nid) :
    nid ≤ res.nid ∧
    (∀ id ∈ mapIds res.m, b ≤ id ∧ id < res.nid) ∧
    (∀ p ∈ res.h, p.1 < res.nid) ∧
    (∀ j, j < b → heapGet res.h j = heapGet h j) ∧
    (∀ id0, res.tbl = some id0 → b ≤ id0 ∧ id0 < res.nid) := by
  unfold colRowEffect at hres
  split at hres
  · -- table change
    split at hres
    · rename_i id0
      rcases htbl id0 rfl with ⟨hb0, hlt0⟩
      have hbb : ∀ p ∈ buildAt maj h id0, p.1 < nid := buildAt_bound _ _ _ _ hb hlt0
      rcases tableSwitch_spec b m _ nid ks cf _ res hres hm hbb hbn
        with ⟨h1, h2, h3, h4, h5⟩
      refine ⟨h1, h2, h3, ?_, h5⟩
      intro j hj
      rw [h4 j hj]
      exact heapGet_buildAt_ne _ _ _ _ (Nat.ne_of_lt (Nat.lt_of_lt_of_le hj hb0))
    · exact tableSwitch_spec b m h nid ks cf _ res hres hm hb hbn
  · -- same table
    split at hres
    · rename_i id0
      rcases htbl id0 rfl with ⟨hb0, hlt0⟩
      simp only [Option.some_inj] at hres
      subst hres
      refine ⟨Nat.le_refl _, hm, addColAt_bound _ _ _ _ hb hlt0, ?_, ?_⟩
      · intro j hj
        exact heapGet_addColAt_ne _ _ _ _ (Nat.ne_of_lt (Nat.lt_of_lt_of_le hj hb0))
      · intro id1 h1
        exact htbl id1 h1
    · exact absurd hres (by simp)

theorem columnsLoop_spec (b : Nat) (maj : Int) (rows : List ColRow) :
    ∀ (m : KsMap) (h : Heap) (nid : Nat) (ks : String) (acq : Bool) (curCf : String)
      (tbl : Option TableId) (d : DataRes),
    columnsLoop maj rows m h nid ks acq curCf tbl = some d →
    (∀ id ∈ mapIds m, b ≤ id ∧ id < nid) → (∀ p ∈ h, p.1 < nid) → b ≤ nid →
    (∀ id0, tbl = some id0 → b ≤ id0 ∧ id0 < nid) →
    nid ≤ d.nid ∧
    (∀ id ∈ mapIds d.m, b ≤ id ∧ id < d.nid) ∧
    (∀ p ∈ d.h, p.1 < d.nid) ∧
    (∀ id, id < b → heapGet d.h id = heapGet h id) := by
  induction rows with
  | nil =>
    intro m h nid ks acq curCf tbl d hd hm hb hbn htbl
    unfold columnsLoop at hd
    split at hd
    · rename_i id0
      rcases htbl id0 rfl with ⟨hb0, hlt0⟩
      simp only [Option.some_inj] at hd
      subst hd
      refine ⟨Nat.le_refl _, hm, buildAt_bound _ _ _ _ hb hlt0, ?_⟩
      intro j hj
      exact heapGet_buildAt_ne _ _ _ _ (Nat.ne_of_lt (Nat.lt_of_lt_of_le hj hb0))
    · simp only [Option.some_inj] at hd
      subst hd
      exact ⟨Nat.le_refl _, hm, hb, fun _ _ => rfl⟩
  | cons r rest ih =>
    intro m h nid ks acq curCf tbl d hd hm hb hbn htbl
    unfold columnsLoop at hd
    repeat' split at hd
    all_goals first
      | exact absurd hd (by simp)
      | exact ih _ _ _ _ _ _ _ _ hd hm hb hbn htbl
      | ( -- acquired branches going through colRowEffect
         rename_i res hres
         rcases colRowEffect_spec b maj _ h nid _ curCf tbl _ _ r res hres
             (fun id hid => hm id (by
               first
                 | exact hid
                 | rwa [mapIds_ksEnsure] at hid))
             hb hbn htbl
           with ⟨h1, h2, h3, h4, h5⟩
         rcases ih _ _ _ _ _ _ _ _ hd h2 h3 (Nat.le_trans hbn h1) h5
           with ⟨g1, g2, g3, g4⟩
         refine ⟨Nat.le_trans h1 g1, g2, g3, ?_⟩
         intro id hidb
         rw [g4 id hidb, h4 id hidb])
      | ( -- unacquired same-table branch: plain add_column on the current table
         rename_i id0
         rcases htbl id0 rfl with ⟨hb0, hlt0⟩
         rcases ih _ _ _ _ _ _ _ _ hd hm (addColAt_bound _ _ _ _ hb hlt0) hbn htbl
           with ⟨g1, g2, g3, g4⟩
         refine ⟨g1, g2, g3, ?_⟩
         intro id hidb
         rw [g4 id hidb]
         exact heapGet_addColAt_ne _ _ _ _ (Nat.ne_of_lt (Nat.lt_of_lt_of_le hidb hb0)))

theorem dataUpdateTables_spec (b : Nat) (maj : Int) (tabRows : List TabRow)
    (colRows : List ColRow) (m : KsMap) (h : Heap) (nid : Nat) (d : DataRes)
    (hd : dataUpdateTables maj tabRows colRows m h nid = some d)
    (hm : ∀ id ∈ mapIds m, b ≤ id ∧ id < nid) (hb : ∀ p ∈ h, p.1 < nid)
    (hbn : b ≤ nid) :
    nid ≤ d.nid ∧
    (∀ id ∈ mapIds d.m, b ≤ id ∧ id < d.nid) ∧
    (∀ p ∈ d.h, p.1 < d.nid) ∧
    (∀ id, id < b → heapGet d.h id = heapGet h id) := by
  unfold dataUpdateTables at hd
  rcases Option.bind_eq_some.mp hd with ⟨d1, hd1, hd2⟩
  rcases tablesLoop_spec b tabRows m h nid "" false d1 hd1 hm hb hbn
    with ⟨h1, h2, h3, h4⟩
  rcases columnsLoop_spec b maj colRows d1.m d1.h d1.nid "" false "" none d hd2 h2 h3
      (Nat.le_trans hbn h1) (fun id0 h0 => by cases h0)
    with ⟨g1, g2, g3, g4⟩
  refine ⟨Nat.le_trans h1 g1, g2, g3, ?_⟩
  intro id hidb
  rw [g4 id hidb, h4 id hidb]

/-! ### Rebuild invariant: what back-generation updates can touch -/

/-- Invariant holding throughout a rebuild started from `s0` with front
generation `F`, heap `H0` and allocation bound `n0`: updates target the
back generation, the front map value is untouched, every heap cell below
`n0` is untouched, and the back generation references only table objects
allocated at or after `n0`. -/
def InvC2 (F : KsMap) (H0 : Heap) (n0 : Nat) (s : MetaState) : Prop :=
  s.updatingFront = false ∧ s.front = F ∧ n0 ≤ s.nextId ∧
  (∀ id, id < n0 → heapGet s.heap id = heapGet H0 id) ∧
  (∀ id ∈ mapIds s.back, n0 ≤ id ∧ id < s.nextId) ∧
  (∀ p ∈ s.heap, p.1 < s.nextId)

theorem invC2_back_maponly (F : KsMap) (H0 : Heap) (n0 : Nat) (s : MetaState)
    (v : Nat) (m2 : KsMap) (hinv : InvC2 F H0 n0 s)
    (hm2 : ∀ id ∈ mapIds m2, id ∈ mapIds s.back) :
    InvC2 F H0 n0 (applyToUpdating { s with version := v } m2) := by
  obtain ⟨hup, hfr, hn, hheap, hback, hb⟩ := hinv
  have hup2 : ({ s with version := v } : MetaState).updatingFront = false := hup
  refine ⟨?_, ?_, ?_, ?_, ?_, ?_⟩
  · rw [applyToUpdating_updatingFront]; exact hup
  · rw [applyToUpdating_front_of_back _ _ hup2]; exact hfr
  · rw [applyToUpdating_nextId]; exact hn
  · intro id hid
    rw [applyToUpdating_heap]
    exact hheap id hid
  · intro id hid
    rw [applyToUpdating_back_of_back _ _ hup2] at hid
    rw [applyToUpdating_nextId]
    exact hback id (hm2 id hid)
  · intro p hp
    rw [applyToUpdating_heap] at hp
    rw [applyToUpdating_nextId]
    exact hb p hp

theorem invC2_back_tables (F : KsMap) (H0 : Heap) (n0 : Nat) (s : MetaState)
    (v : Nat) (tabRows : List TabRow) (colRows : List ColRow) (d : DataRes)
    (hinv : InvC2 F H0 n0 s)
    (hd : dataUpdateTables s.cassMajor tabRows colRows s.back s.heap s.nextId = some d) :
    InvC2 F H0 n0
      (applyToUpdating { s with version := v, heap := d.h, nextId := d.nid } d.m) := by
  obtain ⟨hup, hfr, hn, hheap, hback, hb⟩ := hinv
  rcases dataUpdateTables_spec n0 s.cassMajor tabRows colRows s.back s.heap s.nextId d hd
      hback hb hn with ⟨h1, h2, h3, h4⟩
  have hup2 : ({ s with version := v, heap := d.h, nextId := d.nid } :
      MetaState).updatingFront = false := hup
  refine ⟨?_, ?_, ?_, ?_, ?_, ?_⟩
  · rw [applyToUpdating_updatingFront]; exact hup
  · rw [applyToUpdating_front_of_back _ _ hup2]; exact hfr
  · rw [applyToUpdating_nextId]
    exact Nat.le_trans hn h1
  · intro id hid
    rw [applyToUpdating_heap]
    show heapGet d.h id = heapGet H0 id
    rw [h4 id hid]
    exact hheap id hid
  · intro id hid
    rw [applyToUpdating_back_of_back _ _ hup2] at hid
    rw [applyToUpdating_nextId]
    exact h2 id hid
  · intro p hp
    rw [applyToUpdating_heap] at hp
    rw [applyToUpdating_nextId]
    exact h3 p hp

theorem step_preserves_invC2 (F : KsMap) (H0 : Heap) (n0 : Nat) (op : MutOp)
    (s s2 : MetaState) (hop : op.isUpdateOrDrop = true)
    (hinv : InvC2 F H0 n0 s) (h : step op s = some s2) : InvC2 F H0 n0 s2 := by
  have hup : s.updatingFront = false := hinv.1
  cases op <;> simp only [MutOp.isUpdateOrDrop] at hop
  case updateKeyspaces rows =>
    simp only [step, Option.some_inj] at h
    subst h
    rw [updatingMap_of_back s hup]
    exact invC2_back_maponly _ _ _ _ _ _ hinv
      (fun id hid => (mapIds_dataUpdateKeyspaces rows s.back ▸ hid))
  case updateTables tabRows colRows =>
    simp only [step] at h
    rcases Option.map_eq_some'.mp h with ⟨d, hd, h2⟩
    subst h2
    rw [updatingMap_of_back s hup] at hd
    exact invC2_back_tables _ _ _ _ _ _ _ _ hinv hd
  case updateUserTypes rows =>
    simp only [step] at h
    rcases Option.map_eq_some'.mp h with ⟨m2, hm2, h2⟩
    subst h2
    rw [updatingMap_of_back s hup] at hm2
    exact invC2_back_maponly _ _ _ _ _ _ hinv
      (fun id hid => (userTypesLoop_mapIds rows s.back "" false m2 hm2 ▸ hid))
  case updateFunctions rows =>
    simp only [step] at h
    rcases Option.map_eq_some'.mp h with ⟨m2, hm2, h2⟩
    subst h2
    rw [updatingMap_of_back s hup] at hm2
    exact invC2_back_maponly _ _ _ _ _ _ hinv
      (fun id hid => (functionsLoop_mapIds rows s.back "" false m2 hm2 ▸ hid))
  case updateAggregates rows =>
    simp only [step] at h
    rcases Option.map_eq_some'.mp h with ⟨m2, hm2, h2⟩
    subst h2
    rw [updatingMap_of_back s hup] at hm2
    exact invC2_back_maponly _ _ _ _ _ _ hinv
      (fun id hid => (aggregatesLoop_mapIds rows s.back "" false m2 hm2 ▸ hid))
  case dropKeyspace ks =>
    simp only [step, Option.some_inj] at h
    subst h
    rw [updatingMap_of_back s hup]
    exact invC2_back_maponly _ _ _ _ _ _ hinv
      (fun id hid => mem_mapIds_assocErase s.back ks id hid)
  case dropTable ks t =>
    simp only [step, Option.some_inj] at h
    subst h
    rw [updatingMap_of_back s hup]
    exact invC2_back_maponly _ _ _ _ _ _ hinv
      (fun id hid => mem_mapIds_dropTable s.back ks t id hid)
  case dropUserType ks tn =>
    simp only [step, Option.some_inj] at h
    subst h
    rw [updatingMap_of_back s hup]
    exact invC2_back_maponly _ _ _ _ _ _ hinv
      (fun id hid => (mapIds_dropUserType s.back ks tn ▸ hid))
  case dropFunction ks fn =>
    simp only [step, Option.some_inj] at h
    subst h
    rw [updatingMap_of_back s hup]
    exact invC2_back_maponly _ _ _ _ _ _ hinv
      (fun id hid => (mapIds_dropFunction s.back ks fn ▸ hid))
  case dropAggregate ks an =>
    simp only [step, Option.some_inj] at h
    subst h
    rw [updatingMap_of_back s hup]
    exact invC2_back_maponly _ _ _ _ _ _ hinv
      (fun id hid => (mapIds_dropAggregate s.back ks an ▸ hid))
  case clearAndUpdateBack => exact absurd hop (by decide)
  case swapToBackAndUpdateFront => exact absurd hop (by decide)
  case clear => exact absurd hop (by decide)

theorem foldSteps_preserves_invC2 (F : KsMap) (H0 : Heap) (n0 : Nat) :
    ∀ (ops : List MutOp) (s s2 : MetaState),
    (∀ op ∈ ops, op.isUpdateOrDrop = true) → InvC2 F H0 n0 s →
    foldSteps ops s = some s2 → InvC2 F H0 n0 s2 := by
  intro ops
  induction ops with
  | nil =>
    intro s s2 _ hinv h
    simp only [foldSteps, Option.some_inj] at h
    exact h ▸ hinv
  | cons op rest ih =>
    intro s s2 hops hinv h
    simp only [foldSteps] at h
    rcases Option.bind_eq_some.mp h with ⟨s1, h1, h2⟩
    exact ih s1 s2 (fun o ho => hops o (List.mem_cons_of_mem op ho))
      (step_preserves_invC2 F H0 n0 op s s1 (hops op (List.mem_cons_self op rest)) hinv h1)
      h2

theorem observeKs_congr (h1 h2 : Heap) (m : KsMap)
    (hfr : ∀ id ∈ mapIds m, heapGet h1 id = heapGet h2 id) :
    observeKs h1 m = observeKs h2 m := by
  unfold observeKs
  apply List.map_congr_left
  intro p hp
  have htab : p.2.tables.map (fun q => (q.1, heapGet h1 q.2)) =
      p.2.tables.map (fun q => (q.1, heapGet h2 q.2)) :=
    List.map_congr_left (fun q hq => by
      rw [hfr q.2 (List.mem_flatMap.mpr ⟨p, hp, List.mem_map_of_mem _ hq⟩)])
  rw [htab]

/-! ## Claim C2 — rebuild atomicity -/

/-- Claim C2: starting a rebuild with `clear_and_update_back`, applying
any completed sequence of update/drop operations, and finishing with
`swap_to_back_and_update_front`: every snapshot taken mid-sequence
observes exactly the pre-rebuild front contents (keyspaces and the table
objects they reference), and the snapshot taken after the swap observes
exactly the contents accumulated in the back generation — which started
empty — by the sequence. -/
theorem rebuild_atomicity (s0 : MetaState) (ops : List MutOp)
    (hwf : WF s0) (hops : ∀ op ∈ ops, op.isUpdateOrDrop = true) :
    (∀ l1 l2, ops = l1 ++ l2 →
      ∀ sMid, foldSteps l1 (clearAndUpdateBack s0) = some sMid →
      observeKs sMid.heap (schemaSnapshot sMid).keyspaces =
        observeKs s0.heap (schemaSnapshot s0).keyspaces)
    ∧ (∀ s2, foldSteps ops (clearAndUpdateBack s0) = some s2 →
        observeKs (swapToBackAndUpdateFront s2).heap
            (schemaSnapshot (swapToBackAndUpdateFront s2)).keyspaces =
          observeKs s2.heap s2.back
        ∧ (clearAndUpdateBack s0).back = []) := by
  obtain ⟨hwf1, hwf2, hwf3⟩ := hwf
  have hinv0 : InvC2 s0.front s0.heap s0.nextId (clearAndUpdateBack s0) := by
    refine ⟨rfl, rfl, Nat.le_refl _, fun _ _ => rfl, ?_, hwf3⟩
    intro id hid
    exact absurd hid (by simp [clearAndUpdateBack, mapIds])
  constructor
  · intro l1 l2 hsplit sMid hMid
    have hops1 : ∀ op ∈ l1, op.isUpdateOrDrop = true :=
      fun op hop => hops op (hsplit ▸ List.mem_append_left l2 hop)
    obtain ⟨hup, hfr, hn, hheap, hback, hb⟩ :=
      foldSteps_preserves_invC2 s0.front s0.heap s0.nextId l1 _ _ hops1 hinv0 hMid
    show observeKs sMid.heap sMid.front = observeKs s0.heap s0.front
    rw [hfr]
    exact observeKs_congr _ _ _ (fun id hid => hheap id (hwf1 id hid))
  · intro s2 h2
    exact ⟨rfl, rfl⟩

theorem rebuild_atomicity_witness :
    WF initMetadata ∧
    (∀ op ∈ [MutOp.dropKeyspace "k"], op.isUpdateOrDrop = true) ∧
    ((∀ l1 l2, [MutOp.dropKeyspace "k"] = l1 ++ l2 →
      ∀ sMid, foldSteps l1 (clearAndUpdateBack initMetadata) = some sMid →
      observeKs sMid.heap (schemaSnapshot sMid).keyspaces =
        observeKs initMetadata.heap (schemaSnapshot initMetadata).keyspaces)
    ∧ (∀ s2, foldSteps [MutOp.dropKeyspace "k"] (clearAndUpdateBack initMetadata) = some s2 →
        observeKs (swapToBackAndUpdateFront s2).heap
            (schemaSnapshot (swapToBackAndUpdateFront s2)).keyspaces =
          observeKs s2.heap s2.back
        ∧ (clearAndUpdateBack initMetadata).back = [])) :=
  ⟨⟨fun id hid => absurd hid (by simp [initMetadata, mapIds]),
    fun id hid => absurd hid (by simp [initMetadata, mapIds]),
    fun p hp => absurd hp (by simp [initMetadata])⟩,
   by decide,
   rebuild_atomicity initMetadata [MutOp.dropKeyspace "k"]
     ⟨fun id hid => absurd hid (by simp [initMetadata, mapIds]),
      fun id hid => absurd hid (by simp [initMetadata, mapIds]),
      fun p hp => absurd hp (by simp [initMetadata])⟩
     (by decide)⟩

/-! ## Claim C3 — canonical naming (`Metadata::full_function_name`) -/

/-- Claim C3 is false as stated: the comma is keyed to the slot index
(`i != signature.begin()`), not to previously *emitted* arguments, so a
dropped first argument followed by an emitted one produces an empty
slot: `full_function_name("f", ["", "int"]) = "f(,int)"`, whereas the
claimed join of emitted arguments gives `"f(int)"`. -/
theorem full_function_name_spec_counterexample :
    fullFunctionName "f" ["", "int"] = "f(,int)" ∧
    fullNameSpec "f" ["", "int"] = "f(int)" ∧
    fullFunctionName "f" ["", "int"] ≠ fullNameSpec "f" ["", "int"] := by
  refine ⟨rfl, rfl, ?_⟩; decide

theorem ffnAux_false (l : List String) :
    ffnAux l false =
      strConcat (l.map (fun a =>
        let t := stripWs a
        if t = "" then "" else "," ++ t)) := by
  induction l with
  | nil => rfl
  | cons a rest ih =>
    simp only [ffnAux, List.map, strConcat]
    by_cases h : stripWs a = "" <;> simp [h, ih]

theorem join_enumFrom_ne_zero (rest : List String) (n : Nat) (hn : n ≠ 0) :
    strConcat ((List.enumFrom n rest).map (fun p =>
        let t := stripWs p.2
        if t = "" then "" else (if p.1 = 0 then "" else ",") ++ t)) =
    strConcat (rest.map (fun a =>
        let t := stripWs a
        if t = "" then "" else "," ++ t)) := by
  induction rest generalizing n with
  | nil => rfl
  | cons a rest ih =>
    simp only [List.enumFrom, List.map, strConcat]
    by_cases h : stripWs a = "" <;>
      simp [h, hn, ih (n + 1) (Nat.succ_ne_zero n)]

/-- Amended claim C3: `full_function_name(s, args)` equals `s ++ "(" ++ j
++ ")"` where `j` emits each whitespace-stripped non-empty argument,
preceded by a comma exactly when the argument does not occupy the first
position of the input list (so a dropped first argument followed by an
emitted one yields a leading comma); the claimed example
`full_function_name("f", ["int", " text ", ""]) = "f(int,text)"` holds. -/
theorem full_function_name_amended (name : String) (signature : List String) :
    fullFunctionName name signature = fullNameAmended name signature ∧
    fullFunctionName "f" ["int", " text ", ""] = "f(int,text)" := by
  refine ⟨?_, rfl⟩
  unfold fullFunctionName fullNameAmended
  cases signature with
  | nil => rfl
  | cons a rest =>
    have henum : (a :: rest).enum = (0, a) :: List.enumFrom 1 rest := rfl
    rw [henum]
    simp only [ffnAux, List.map, strConcat]
    rw [ffnAux_false, join_enumFrom_ne_zero rest 1 one_ne_zero]
    by_cases h : stripWs a = "" <;> simp [h]

/-! ## Claims C4 / C5 — version counter effects -/

/-- Version effect of each mutating operation. -/
def versionSpec (op : MutOp) (v : Nat) : Nat :=
  match op with
  | .clearAndUpdateBack => v
  | .clear => 0
  | _ => (v + 1) % 4294967296

theorem step_version_eq (op : MutOp) (s s2 : MetaState) (h : step op s = some s2) :
    s2.version = versionSpec op s.version := by
  cases op <;> simp only [step, Option.some_inj] at h
  all_goals first
  | (subst h
     simp [versionSpec, bumpVersion, clearAndUpdateBack, swapToBackAndUpdateFront,
       clearMetadata])
  | (rw [Option.map_eq_some'] at h
     obtain ⟨d, hd, h2⟩ := h
     subst h2
     simp [versionSpec, bumpVersion])

/-- Claim C4: each completed call to one of the ten update/drop entry
points increments `schema_snapshot_version_` (a `uint32_t`, hence the
modulus) by exactly one, even when the result set is empty or the
dropped entity does not exist. -/
theorem update_drop_bumps_version_once (op : MutOp) (s s2 : MetaState)
    (hop : op.isUpdateOrDrop = true) (h : step op s = some s2) :
    s2.version = (s.version + 1) % 4294967296 := by
  rw [step_version_eq op s s2 h]
  cases op <;> first
  | rfl
  | exact absurd hop (by simp [MutOp.isUpdateOrDrop])

theorem update_drop_bumps_version_once_witness :
    (MutOp.dropKeyspace "k").isUpdateOrDrop = true ∧
    step (.dropKeyspace "k") initMetadata = some { initMetadata with version := 1 } ∧
    ({ initMetadata with version := 1 } : MetaState).version =
      (initMetadata.version + 1) % 4294967296 :=
  ⟨by decide, by decide,
    update_drop_bumps_version_once (.dropKeyspace "k") initMetadata
      { initMetadata with version := 1 } (by decide) (by decide)⟩

/-! ## Claim C5 — version monotonicity across all mutating operations -/

/-- Claim C5 is false as stated: `clear_and_update_back` performs no
version bump at all (the version observed after it equals the one
before), and `clear` resets the counter to 0. -/
theorem version_monotonic_counterexample :
    ¬ (∀ (op : MutOp) (s s2 : MetaState), step op s = some s2 →
        s.version < s2.version) := by
  intro h
  have := h .clearAndUpdateBack initMetadata (clearAndUpdateBack initMetadata) rfl
  simp [clearAndUpdateBack, initMetadata] at this

/-- Amended claim C5: the ten update/drop operations and
`swap_to_back_and_update_front` each increment the version by exactly 1
(as a `uint32_t`); `clear_and_update_back` leaves it unchanged; `clear`
resets it to 0 — so the counter is not monotone across `clear`, and
`clear_and_update_back` does not increment it. -/
theorem version_effect_amended (op : MutOp) (s s2 : MetaState)
    (h : step op s = some s2) : s2.version = versionSpec op s.version :=
  step_version_eq op s s2 h

theorem version_effect_amended_witness :
    step .clearAndUpdateBack initMetadata = some (clearAndUpdateBack initMetadata) ∧
    (clearAndUpdateBack initMetadata).version =
      versionSpec .clearAndUpdateBack initMetadata.version :=
  ⟨rfl, version_effect_amended .clearAndUpdateBack initMetadata
    (clearAndUpdateBack initMetadata) rfl⟩

/-! ## Claim C7 — legacy partition-key alias synthesis -/

/-- Input for the C7 evaluation: a two-component `key_validator`. -/
def c7TwoComponents : ParseRes :=
  { types := [{ tname := "int", vtype := .other }, { tname := "int", vtype := .other }]
    isComposite := true
    collections := [] }

/-- Claim C7's synthesized names are wrong in the code: for a
two-component validator with empty `key_aliases`,
`build_keys_and_sort` (major < 2) names the second partition column
`"2ey"` — `std::ostringstream ss("key")` writes at position 0, so
`ss << i + 1` overwrites the leading characters — where the claim (and
`TableMetadata::key_aliases`, which seeks to position 3 for the same
synthesis) says `"key2"`.  The alias-driven cases of the claim do hold:
aliases `["k1","k2"]` give `[k1, k2]` and a single-component validator
with no aliases gives `["key"]`. -/
theorem legacy_partition_key_alias_eval :
    ((buildKeysAndSort 1 { emptyTable "t" with keyValidator := c7TwoComponents }).partitionKey.map
        (fun o => o.map ColumnT.cname) = [some "key", some "2ey"]) ∧
    ((buildKeysAndSort 1 { emptyTable "t" with
        keyValidator := c7TwoComponents
        keyAliases := ["k1", "k2"] }).partitionKey.map
        (fun o => o.map ColumnT.cname) = [some "k1", some "k2"]) ∧
    ((buildKeysAndSort 1 { emptyTable "t" with
        keyValidator := { c7TwoComponents with
          types := [{ tname := "int", vtype := .other }] } }).partitionKey.map
        (fun o => o.map ColumnT.cname) = [some "key"]) ∧
    "2ey" ≠ "key2" := by
  refine ⟨rfl, rfl, rfl, ?_⟩; decide

/-! ## Claim C8 — legacy trailing-component exclusion rule -/

/-- Comparator used to refute claim C8: composite, with embedded
collection types, two non-text components, no aliases. -/
def c8Comparator : ParseRes :=
  { types := [{ tname := "int", vtype := .other }, { tname := "int", vtype := .other }]
    isComposite := true
    collections := [{ tname := "map", vtype := .other }] }

/-- Claim C8 is false as stated: the code drops the last component of a
composite comparator when `collections` is **non-empty, regardless** of
the alias count and the last component's type (`!collections.empty() ||
(...)`), whereas the claim requires no embedded collections as a
conjunct.  Witnessed by a composite comparator with an embedded
collection, two non-text components and no aliases: the code excludes
the last component but the claimed condition is false. -/
theorem legacy_last_component_claim_counterexample :
    ¬ (∀ (cmp : ParseRes) (columnAliases : List String) (columnsIsEmpty : Bool),
        cmp.isComposite = true →
        (legacyClusteringCount cmp columnAliases columnsIsEmpty = cmp.types.length - 1 ↔
          (cmp.collections.isEmpty = true ∧
           columnAliases.length = cmp.types.length - 1 ∧
           cmp.types.getLast?.map DTy.vtype = some .text))) := by
  intro h
  have h2 := (h c8Comparator [] false rfl).mp (by decide)
  exact absurd h2.1 (by decide)

/-- Amended claim C8: in legacy clustering-key derivation the last
component of a composite comparator is excluded iff the comparator
declares embedded collection types **or** (the `column_aliases` count
equals the component count minus 1 and the last component's underlying
type is text). -/
theorem legacy_last_component_amended (cmp : ParseRes) (columnAliases : List String)
    (columnsIsEmpty : Bool) (hcomp : cmp.isComposite = true)
    (hsize : 1 ≤ cmp.types.length) :
    legacyClusteringCount cmp columnAliases columnsIsEmpty = cmp.types.length - 1 ↔
      (cmp.collections.isEmpty = false ∨
        (columnAliases.length = cmp.types.length - 1 ∧
         cmp.types.getLast?.map DTy.vtype = some .text)) := by
  unfold legacyClusteringCount
  rw [hcomp]
  simp only [if_true]
  split
  · rename_i hcond
    simp only [Bool.not_eq_true', decide_eq_true_eq, Bool.or_eq_true, decide_eq_true_iff] at hcond
    constructor
    · intro _
      rcases hcond with hc | hc
      · exact Or.inl (by simpa using hc)
      · exact Or.inr hc
    · intro _; rfl
  · rename_i hcond
    simp only [Bool.not_eq_true', decide_eq_true_eq, Bool.or_eq_true, decide_eq_true_iff,
      not_or] at hcond
    constructor
    · intro heq; omega
    · intro hc
      rcases hc with hc | hc
      · exact absurd (by simpa using hc : ¬ cmp.collections.isEmpty = true)
          (by simpa using hcond.1)
      · exact absurd hc hcond.2

theorem legacy_last_component_amended_witness :
    c8Comparator.isComposite = true ∧ 1 ≤ c8Comparator.types.length ∧
    (legacyClusteringCount c8Comparator [] false = c8Comparator.types.length - 1 ↔
      (c8Comparator.collections.isEmpty = false ∨
        (List.length ([] : List String) = c8Comparator.types.length - 1 ∧
         c8Comparator.types.getLast?.map DTy.vtype = some .text))) :=
  ⟨rfl, by decide, legacy_last_component_amended c8Comparator [] false rfl (by decide)⟩

/-! ## Claim C9 — aggregate construction is not fault-free -/

/-- Row with `state_type` absent but `final_func` present as a varchar. -/
def c9Row : AggRowData := { final_func := some (.varchar "f") }

/-- Claim C9 is false on the code: the `final_func` (and `state_func`)
branch of `AggregateMetadata`'s constructor calls
`state_type_->to_string()` without a null check, so a row whose
`state_type` column is absent (or null, or not a varchar) while
`final_func` is a varchar dereferences a null pointer — modelled as the
construction faulting (`none`) instead of completing. -/
theorem aggregate_construct_fault_eval :
    aggregateConstruct "agg" ["int"] [] c9Row = none ∧
    ¬ (∀ (name : String) (signature : List String)
        (functions : List (String × FunctionT)) (row : AggRowData),
        (aggregateConstruct name signature functions row).isSome = true) := by
  constructor
  · rfl
  · intro h
    have := h "agg" ["int"] [] c9Row
    simp [aggregateConstruct, c9Row, MVal.asVarchar, MVal.asVarcharList] at this

/-! ## Claims C6 / C10 — modern key derivation -/

/-- Sort rank of a column under `ColumnCompare`: partition keys first,
then clustering keys, then everything else. -/
def tier (c : ColumnT) : Nat :=
  match c.ctype with
  | .partitionKey => 0
  | .clusteringKey => 1
  | _ => 2

/-- Comparison by position only (the order within one key class). -/
def posLt (a b : ColumnT) : Bool :=
  decide (a.position < b.position)

theorem tier_le_two (c : ColumnT) : tier c ≤ 2 := by
  unfold tier; split <;> omega

theorem tier_eq_zero_iff (c : ColumnT) : tier c = 0 ↔ c.ctype = .partitionKey := by
  unfold tier; cases c.ctype <;> simp

theorem tier_eq_one_iff (c : ColumnT) : tier c = 1 ↔ c.ctype = .clusteringKey := by
  unfold tier; cases c.ctype <;> simp

theorem tier_eq_two_iff (c : ColumnT) :
    tier c = 2 ↔ (c.ctype ≠ .partitionKey ∧ c.ctype ≠ .clusteringKey) := by
  unfold tier; cases c.ctype <;> simp

theorem cc_iff (a b : ColumnT) :
    columnCompare a b = true ↔
      (tier a < tier b ∨ (tier a = tier b ∧ tier a < 2 ∧ a.position < b.position)) := by
  cases ha : a.ctype <;> cases hb : b.ctype <;>
    simp [columnCompare, tier, ha, hb]

theorem cc_true_of_tier_lt {a b : ColumnT} (h : tier a < tier b) :
    columnCompare a b = true :=
  (cc_iff a b).mpr (Or.inl h)

theorem cc_false_of_tier_gt {a b : ColumnT} (h : tier b < tier a) :
    columnCompare a b = false := by
  cases hc : columnCompare a b
  · rfl
  · rcases (cc_iff a b).mp hc with h1 | ⟨h1, _, _⟩ <;> omega

theorem cc_false_of_tier_two {a b : ColumnT} (h : tier a = 2) :
    columnCompare a b = false := by
  cases hc : columnCompare a b
  · rfl
  · rcases (cc_iff a b).mp hc with h1 | ⟨_, h2, _⟩
    · have := tier_le_two b; omega
    · omega

theorem cc_eq_posLt_of_tier_eq {a b : ColumnT} (h : tier b = tier a) (ha : tier a < 2) :
    columnCompare a b = posLt a b := by
  cases hb : posLt a b
  · have hpos : ¬ a.position < b.position := by simpa [posLt] using hb
    cases hc : columnCompare a b
    · rfl
    · rcases (cc_iff a b).mp hc with h1 | ⟨_, _, h3⟩
      · omega
      · exact absurd h3 hpos
  · have hpos : a.position < b.position := by simpa [posLt] using hb
    exact (cc_iff a b).mpr (Or.inr ⟨h.symm, ha, hpos⟩)

theorem stableSortBy_append_singleton (lt : α → α → Bool) (l : List α) (x : α) :
    stableSortBy lt (l ++ [x]) = insBy lt x (stableSortBy lt l) := by
  simp [stableSortBy, List.foldl_append]

theorem mem_insBy_iff (lt : α → α → Bool) (x y : α) (l : List α) :
    y ∈ insBy lt x l ↔ y = x ∨ y ∈ l := by
  induction l with
  | nil => simp [insBy]
  | cons a rest ih =>
    unfold insBy
    split
    · simp
    · simp only [List.mem_cons, ih]
      tauto

theorem mem_stableSortBy_iff (lt : α → α → Bool) (l : List α) (y : α) :
    y ∈ stableSortBy lt l ↔ y ∈ l := by
  induction l using List.reverseRecOn with
  | nil => simp [stableSortBy]
  | append_singleton l x ih =>
    rw [stableSortBy_append_singleton, mem_insBy_iff]
    simp [ih, or_comm]

theorem insBy_all_true (lt : α → α → Bool) (x : α) (l : List α)
    (h : ∀ y ∈ l, lt x y = true) : insBy lt x l = x :: l := by
  cases l with
  | nil => rfl
  | cons a rest => simp [insBy, h a (List.mem_cons_self a rest)]

theorem insBy_append_of_false (lt : α → α → Bool) (x : α) (A B : List α)
    (h : ∀ y ∈ A, lt x y = false) : insBy lt x (A ++ B) = A ++ insBy lt x B := by
  induction A with
  | nil => rfl
  | cons a rest ih =>
    have ha := h a (List.mem_cons_self a rest)
    have ih2 := ih (fun y hy => h y (List.mem_cons_of_mem a hy))
    simp [insBy, ha, ih2]

theorem insBy_all_false (lt : α → α → Bool) (x : α) (l : List α)
    (h : ∀ y ∈ l, lt x y = false) : insBy lt x l = l ++ [x] := by
  have := insBy_append_of_false lt x l [] h
  simpa using this

/-- Inserting a column of tier `t < 2` into `A ++ B` where `A` holds
tier-`t` columns and `B` holds strictly larger tiers inserts by position
into `A`. -/
theorem insBy_cc_tier_block (x : ColumnT) (A B : List ColumnT)
    (hx : tier x < 2) (hA : ∀ y ∈ A, tier y = tier x)
    (hB : ∀ y ∈ B, tier x < tier y) :
    insBy columnCompare x (A ++ B) = insBy posLt x A ++ B := by
  induction A with
  | nil =>
    simp only [List.nil_append]
    rw [insBy_all_true columnCompare x B (fun y hy => cc_true_of_tier_lt (hB y hy))]
    rfl
  | cons a rest ih =>
    have hcc : columnCompare x a = posLt x a :=
      cc_eq_posLt_of_tier_eq (hA a (List.mem_cons_self a rest)) hx
    have ih2 := ih (fun y hy => hA y (List.mem_cons_of_mem a hy))
    cases hp : posLt x a
    · rw [hp] at hcc
      simp [insBy, hcc, hp, ih2]
    · rw [hp] at hcc
      simp [insBy, hcc, hp]

/-- The `std::stable_sort` with `ColumnCompare` decomposes into the three
tier blocks: partition-key columns stably sorted by position, then
clustering-key columns stably sorted by position, then the remaining
columns in their original order. -/
theorem stableSortBy_cc_decomp (l : List ColumnT) :
    stableSortBy columnCompare l =
      stableSortBy posLt (l.filter (fun c => tier c = 0))
        ++ stableSortBy posLt (l.filter (fun c => tier c = 1))
        ++ l.filter (fun c => tier c = 2) := by
  induction l using List.reverseRecOn with
  | nil => rfl
  | append_singleton l x ih =>
    rw [stableSortBy_append_singleton, ih]
    rw [List.filter_append, List.filter_append, List.filter_append]
    set A := stableSortBy posLt (l.filter (fun c => tier c = 0)) with hAdef
    set B := stableSortBy posLt (l.filter (fun c => tier c = 1)) with hBdef
    set C := l.filter (fun c => tier c = 2) with hCdef
    have hA : ∀ y ∈ A, tier y = 0 := by
      intro y hy
      rw [hAdef] at hy
      have := (mem_stableSortBy_iff _ _ y).mp hy
      simpa using (List.of_mem_filter this)
    have hBmem : ∀ y ∈ B, tier y = 1 := by
      intro y hy
      rw [hBdef] at hy
      have := (mem_stableSortBy_iff _ _ y).mp hy
      simpa using (List.of_mem_filter this)
    have hCmem : ∀ y ∈ C, tier y = 2 := by
      intro y hy
      rw [hCdef] at hy
      simpa using (List.of_mem_filter hy)
    have htx := tier_le_two x
    rcases hcase : tier x with _ | n
    · -- tier x = 0
      have hfilter0 : List.filter (fun c => decide (tier c = 0)) [x] = [x] := by
        rw [List.filter_singleton]; simp [hcase]
      have hfilter1 : List.filter (fun c => decide (tier c = 1)) [x] = [] := by
        rw [List.filter_singleton]; simp [hcase]
      have hfilter2 : List.filter (fun c => decide (tier c = 2)) [x] = [] := by
        rw [List.filter_singleton]; simp [hcase]
      rw [hfilter0, hfilter1, hfilter2, List.append_nil, List.append_nil,
        stableSortBy_append_singleton]
      calc insBy columnCompare x (A ++ B ++ C)
          = insBy columnCompare x (A ++ (B ++ C)) := by rw [List.append_assoc]
        _ = insBy posLt x A ++ (B ++ C) := by
            apply insBy_cc_tier_block x A (B ++ C) (by omega)
              (fun y hy => by rw [hA y hy, hcase])
              (fun y hy => by
                rcases List.mem_append.mp hy with hy | hy
                · rw [hcase, hBmem y hy]; omega
                · rw [hcase, hCmem y hy]; omega)
        _ = insBy posLt x A ++ B ++ C := by rw [List.append_assoc]
    · rcases n with _ | n
      · -- tier x = 1
        have hfilter0 : List.filter (fun c => decide (tier c = 0)) [x] = [] := by
          rw [List.filter_singleton]; simp [hcase]
        have hfilter1 : List.filter (fun c => decide (tier c = 1)) [x] = [x] := by
          rw [List.filter_singleton]; simp [hcase]
        have hfilter2 : List.filter (fun c => decide (tier c = 2)) [x] = [] := by
          rw [List.filter_singleton]; simp [hcase]
        rw [hfilter0, hfilter1, hfilter2, List.append_nil, List.append_nil,
          stableSortBy_append_singleton]
        calc insBy columnCompare x (A ++ B ++ C)
            = insBy columnCompare x (A ++ (B ++ C)) := by rw [List.append_assoc]
          _ = A ++ insBy columnCompare x (B ++ C) := by
              apply insBy_append_of_false columnCompare x A (B ++ C)
                (fun y hy => cc_false_of_tier_gt (by rw [hA y hy, hcase]; omega))
          _ = A ++ (insBy posLt x B ++ C) := by
              rw [insBy_cc_tier_block x B C (by omega)
                (fun y hy => by rw [hBmem y hy, hcase])
                (fun y hy => by rw [hcase, hCmem y hy]; omega)]
          _ = A ++ insBy posLt x B ++ C := by rw [List.append_assoc]
      · -- tier x = 2
        have hn : n = 0 := by omega
        subst hn
        have hfilter0 : List.filter (fun c => decide (tier c = 0)) [x] = [] := by
          rw [List.filter_singleton]; simp [hcase]
        have hfilter1 : List.filter (fun c => decide (tier c = 1)) [x] = [] := by
          rw [List.filter_singleton]; simp [hcase]
        have hfilter2 : List.filter (fun c => decide (tier c = 2)) [x] = [x] := by
          rw [List.filter_singleton]; simp [hcase]
        rw [hfilter0, hfilter1, hfilter2, List.append_nil, List.append_nil]
        rw [insBy_all_false columnCompare x (A ++ B ++ C)
          (fun y _ => cc_false_of_tier_two hcase)]
        simp [List.append_assoc]

end Cass

namespace Cass

/-! ### Placement of key columns into their position slots -/

theorem placeKeys_fst_length (cols : List ColumnT) (pk ck : List (Option ColumnT)) :
    (placeKeys cols (pk, ck)).1.length = pk.length := by
  induction cols generalizing pk ck with
  | nil => rfl
  | cons c rest ih =>
    unfold placeKeys
    split
    · rw [ih]; simp
    · split
      · rw [ih]
      · rw [ih]

theorem placeKeys_snd_length (cols : List ColumnT) (pk ck : List (Option ColumnT)) :
    (placeKeys cols (pk, ck)).2.length = ck.length := by
  induction cols generalizing pk ck with
  | nil => rfl
  | cons c rest ih =>
    unfold placeKeys
    split
    · rw [ih]
    · split
      · rw [ih]; simp
      · rw [ih]

theorem placeKeys_fst_get_preserved (cols : List ColumnT)
    (pk ck : List (Option ColumnT)) (i : Nat) (v : Option ColumnT)
    (hi : pk[i]? = some v)
    (hw : ∀ d ∈ cols, d.ctype = .partitionKey → 0 ≤ d.position →
      d.position.toNat < pk.length → d.position.toNat = i → some d = v) :
    (placeKeys cols (pk, ck)).1[i]? = some v := by
  induction cols generalizing pk ck with
  | nil => exact hi
  | cons c rest ih =>
    unfold placeKeys
    split
    · rename_i hc
      by_cases hci : c.position.toNat = i
      · have hv : some c = v := hw c (List.mem_cons_self c rest) hc.1 hc.2.1 hc.2.2 hci
        apply ih
        · rw [hci] at hc ⊢
          rw [List.getElem?_set_eq_of_lt _ hc.2.2, hv]
        · intro d hd h1 h2 h3 h4
          exact hw d (List.mem_cons_of_mem c hd) h1 h2 (by simpa using h3) h4
      · apply ih
        · rw [List.getElem?_set_ne hci, hi]
        · intro d hd h1 h2 h3 h4
          exact hw d (List.mem_cons_of_mem c hd) h1 h2 (by simpa using h3) h4
    · split
      · apply ih
        · exact hi
        · intro d hd h1 h2 h3 h4
          exact hw d (List.mem_cons_of_mem c hd) h1 h2 h3 h4
      · apply ih
        · exact hi
        · intro d hd h1 h2 h3 h4
          exact hw d (List.mem_cons_of_mem c hd) h1 h2 h3 h4

theorem placeKeys_snd_get_preserved (cols : List ColumnT)
    (pk ck : List (Option ColumnT)) (i : Nat) (v : Option ColumnT)
    (hi : ck[i]? = some v)
    (hw : ∀ d ∈ cols, d.ctype = .clusteringKey → 0 ≤ d.position →
      d.position.toNat < ck.length → d.position.toNat = i → some d = v) :
    (placeKeys cols (pk, ck)).2[i]? = some v := by
  induction cols generalizing pk ck with
  | nil => exact hi
  | cons c rest ih =>
    unfold placeKeys
    split
    · apply ih
      · exact hi
      · intro d hd h1 h2 h3 h4
        exact hw d (List.mem_cons_of_mem c hd) h1 h2 h3 h4
    · split
      · rename_i hc
        by_cases hci : c.position.toNat = i
        · have hv : some c = v := hw c (List.mem_cons_self c rest) hc.1 hc.2.1 hc.2.2 hci
          apply ih
          · rw [hci] at hc ⊢
            rw [List.getElem?_set_eq_of_lt _ hc.2.2, hv]
          · intro d hd h1 h2 h3 h4
            exact hw d (List.mem_cons_of_mem c hd) h1 h2 (by simpa using h3) h4
        · apply ih
          · rw [List.getElem?_set_ne hci, hi]
          · intro d hd h1 h2 h3 h4
            exact hw d (List.mem_cons_of_mem c hd) h1 h2 (by simpa using h3) h4
      · apply ih
        · exact hi
        · intro d hd h1 h2 h3 h4
          exact hw d (List.mem_cons_of_mem c hd) h1 h2 h3 h4

theorem toNat_inj_of_nonneg {a b : Int} (ha : 0 ≤ a) (hb : 0 ≤ b)
    (h : a.toNat = b.toNat) : a = b := by omega

theorem placeKeys_fst_get_unique (cols : List ColumnT)
    (pk ck : List (Option ColumnT)) (c : ColumnT)
    (hc : c ∈ cols) (hty : c.ctype = .partitionKey) (hpos : 0 ≤ c.position)
    (hrange : c.position.toNat < pk.length)
    (huniq : ∀ d ∈ cols, d.ctype = .partitionKey → d.position = c.position → d = c) :
    (placeKeys cols (pk, ck)).1[c.position.toNat]? = some (some c) := by
  induction cols generalizing pk ck with
  | nil => exact absurd hc (List.not_mem_nil c)
  | cons d rest ih =>
    by_cases hdc : d = c
    · subst hdc
      unfold placeKeys
      rw [if_pos ⟨hty, hpos, hrange⟩]
      apply placeKeys_fst_get_preserved
      · exact List.getElem?_set_eq_of_lt _ hrange
      · intro e he h1 h2 h3 h4
        have : e.position = d.position :=
          toNat_inj_of_nonneg h2 hpos h4
        rw [huniq e (List.mem_cons_of_mem d he) h1 this]
    · have hcrest : c ∈ rest := by
        rcases List.mem_cons.mp hc with h | h
        · exact absurd h.symm hdc
        · exact h
      have huniq2 : ∀ e ∈ rest, e.ctype = .partitionKey → e.position = c.position → e = c :=
        fun e he h1 h2 => huniq e (List.mem_cons_of_mem d he) h1 h2
      unfold placeKeys
      split
      · exact ih _ _ hcrest (by simpa using hrange) huniq2
      · split
        · exact ih _ _ hcrest hrange huniq2
        · exact ih _ _ hcrest hrange huniq2

theorem placeKeys_snd_get_unique (cols : List ColumnT)
    (pk ck : List (Option ColumnT)) (c : ColumnT)
    (hc : c ∈ cols) (hty : c.ctype = .clusteringKey) (hpos : 0 ≤ c.position)
    (hrange : c.position.toNat < ck.length)
    (huniq : ∀ d ∈ cols, d.ctype = .clusteringKey → d.position = c.position → d = c) :
    (placeKeys cols (pk, ck)).2[c.position.toNat]? = some (some c) := by
  induction cols generalizing pk ck with
  | nil => exact absurd hc (List.not_mem_nil c)
  | cons d rest ih =>
    by_cases hdc : d = c
    · subst hdc
      unfold placeKeys
      have hne : ¬ (d.ctype = .partitionKey ∧ 0 ≤ d.position ∧
          d.position.toNat < pk.length) := by
        intro h; rw [hty] at h; exact absurd h.1 (by simp)
      rw [if_neg hne, if_pos ⟨hty, hpos, hrange⟩]
      apply placeKeys_snd_get_preserved
      · exact List.getElem?_set_eq_of_lt _ hrange
      · intro e he h1 h2 h3 h4
        have : e.position = d.position :=
          toNat_inj_of_nonneg h2 hpos h4
        rw [huniq e (List.mem_cons_of_mem d he) h1 this]
    · have hcrest : c ∈ rest := by
        rcases List.mem_cons.mp hc with h | h
        · exact absurd h.symm hdc
        · exact h
      have huniq2 : ∀ e ∈ rest, e.ctype = .clusteringKey → e.position = c.position → e = c :=
        fun e he h1 h2 => huniq e (List.mem_cons_of_mem d he) h1 h2
      unfold placeKeys
      split
      · exact ih _ _ hcrest hrange huniq2
      · split
        · exact ih _ _ hcrest (by simpa using hrange) huniq2
        · exact ih _ _ hcrest hrange huniq2

theorem resizeOpt_length (l : List (Option ColumnT)) (n : Nat) :
    (resizeOpt l n).length = n := by
  simp [resizeOpt]
  omega

theorem filter_tier_zero (l : List ColumnT) :
    l.filter (fun c => tier c = 0) = l.filter (fun c => c.ctype = .partitionKey) :=
  List.filter_congr (fun c _ => by rw [decide_eq_decide]; exact tier_eq_zero_iff c)

theorem filter_tier_one (l : List ColumnT) :
    l.filter (fun c => tier c = 1) = l.filter (fun c => c.ctype = .clusteringKey) :=
  List.filter_congr (fun c _ => by rw [decide_eq_decide]; exact tier_eq_one_iff c)

theorem filter_tier_two (l : List ColumnT) :
    l.filter (fun c => tier c = 2) =
      l.filter (fun c => c.ctype ≠ .partitionKey ∧ c.ctype ≠ .clusteringKey) :=
  List.filter_congr (fun c _ => by rw [decide_eq_decide]; exact tier_eq_two_iff c)

/-- Claim C6: for major `>= 2`, `build_keys_and_sort` reorders `columns()`
into partition-key columns stably ordered by position, then
clustering-key columns stably ordered by position, then the remaining
columns in their original relative order; and (under distinct positions)
`partition_key()` / `clustering_key()` hold each key column at its
position index. -/
theorem modern_key_derivation (maj : Int) (t : TableT) (hmaj : 2 ≤ maj)
    (hpk : ∀ c ∈ t.columns, ∀ d ∈ t.columns, c.ctype = .partitionKey →
      d.ctype = .partitionKey → c.position = d.position → c = d)
    (hck : ∀ c ∈ t.columns, ∀ d ∈ t.columns, c.ctype = .clusteringKey →
      d.ctype = .clusteringKey → c.position = d.position → c = d) :
    ((buildKeysAndSort maj t).columns =
        stableSortBy posLt (t.columns.filter (fun c => c.ctype = .partitionKey))
          ++ stableSortBy posLt (t.columns.filter (fun c => c.ctype = .clusteringKey))
          ++ t.columns.filter (fun c => c.ctype ≠ .partitionKey ∧ c.ctype ≠ .clusteringKey))
    ∧ (∀ c ∈ t.columns, c.ctype = .partitionKey → 0 ≤ c.position →
        c.position.toNat < getColumnCount t.columns .partitionKey →
        (buildKeysAndSort maj t).partitionKey[c.position.toNat]? = some (some c))
    ∧ (∀ c ∈ t.columns, c.ctype = .clusteringKey → 0 ≤ c.position →
        c.position.toNat < getColumnCount t.columns .clusteringKey →
        (buildKeysAndSort maj t).clusteringKey[c.position.toNat]? = some (some c)) := by
  unfold buildKeysAndSort
  rw [if_pos hmaj]
  unfold buildModern
  refine ⟨?_, ?_, ?_⟩
  · show stableSortBy columnCompare t.columns = _
    rw [stableSortBy_cc_decomp, filter_tier_zero, filter_tier_one, filter_tier_two]
  · intro c hc h1 h2 h3
    apply placeKeys_fst_get_unique _ _ _ _ hc h1 h2
    · rw [resizeOpt_length]; exact h3
    · intro d hd hd1 hd2
      exact hpk d hd c hc hd1 h1 hd2
  · intro c hc h1 h2 h3
    apply placeKeys_snd_get_unique _ _ _ _ hc h1 h2
    · rw [resizeOpt_length]; exact h3
    · intro d hd hd1 hd2
      exact hck d hd c hc hd1 h1 hd2

/-- The table of the C6 spec example: columns
`{(id,partition,0), (b,clustering,1), (a,clustering,0), (x,regular)}`. -/
def c6Table : TableT :=
  { emptyTable "t" with columns :=
      [{ cname := "id", ctype := .partitionKey, position := 0, dataType := none,
         isReversed := false },
       { cname := "b", ctype := .clusteringKey, position := 1, dataType := none,
         isReversed := false },
       { cname := "a", ctype := .clusteringKey, position := 0, dataType := none,
         isReversed := false },
       { cname := "x", ctype := .regular, position := 0, dataType := none,
         isReversed := false }] }

theorem modern_key_derivation_witness :
    (2 ≤ (2 : Int)) ∧
    ((buildKeysAndSort 2 c6Table).columns.map ColumnT.cname = ["id", "a", "b", "x"] ∧
     (buildKeysAndSort 2 c6Table).partitionKey.map (fun o => o.map ColumnT.cname) =
       [some "id"] ∧
     (buildKeysAndSort 2 c6Table).clusteringKey.map (fun o => o.map ColumnT.cname) =
       [some "a", some "b"]) ∧
    (((buildKeysAndSort 2 c6Table).columns =
        stableSortBy posLt (c6Table.columns.filter (fun c => c.ctype = .partitionKey))
          ++ stableSortBy posLt (c6Table.columns.filter (fun c => c.ctype = .clusteringKey))
          ++ c6Table.columns.filter
              (fun c => c.ctype ≠ .partitionKey ∧ c.ctype ≠ .clusteringKey))
      ∧ (∀ c ∈ c6Table.columns, c.ctype = .partitionKey → 0 ≤ c.position →
          c.position.toNat < getColumnCount c6Table.columns .partitionKey →
          (buildKeysAndSort 2 c6Table).partitionKey[c.position.toNat]? = some (some c))
      ∧ (∀ c ∈ c6Table.columns, c.ctype = .clusteringKey → 0 ≤ c.position →
          c.position.toNat < getColumnCount c6Table.columns .clusteringKey →
          (buildKeysAndSort 2 c6Table).clusteringKey[c.position.toNat]? = some (some c))) :=
  ⟨by decide, by refine ⟨?_, ?_, ?_⟩ <;> rfl,
    modern_key_derivation 2 c6Table (by decide) (by decide) (by decide)⟩

/-- Degenerate C10 input: two partition columns both at position 0. -/
def c10Table : TableT :=
  { emptyTable "t" with columns :=
      [{ cname := "p", ctype := .partitionKey, position := 0, dataType := none,
         isReversed := false },
       { cname := "q", ctype := .partitionKey, position := 0, dataType := none,
         isReversed := false }] }

/-- Claim C10: after the modern build, `partition_key()` (resp.
`clustering_key()`) has exactly one slot per column of the corresponding
type; when the key positions are distinct and in range, slot `i` holds
the unique column with position `i`; and with duplicated positions a
slot keeps its null pointer, so `cass_table_meta_partition_key` returns
null even for an index below the reported count (here index 1 < count 2). -/
theorem modern_key_slots (maj : Int) (t : TableT) (hmaj : 2 ≤ maj) :
    ((buildKeysAndSort maj t).partitionKey.length =
        getColumnCount t.columns .partitionKey ∧
     (buildKeysAndSort maj t).clusteringKey.length =
        getColumnCount t.columns .clusteringKey)
    ∧ (∀ c ∈ t.columns, c.ctype = .partitionKey →
        (∀ d ∈ t.columns, d.ctype = .partitionKey → d.position = c.position → d = c) →
        0 ≤ c.position → c.position.toNat < getColumnCount t.columns .partitionKey →
        (buildKeysAndSort maj t).partitionKey[c.position.toNat]? = some (some c))
    ∧ (∀ c ∈ t.columns, c.ctype = .clusteringKey →
        (∀ d ∈ t.columns, d.ctype = .clusteringKey → d.position = c.position → d = c) →
        0 ≤ c.position → c.position.toNat < getColumnCount t.columns .clusteringKey →
        (buildKeysAndSort maj t).clusteringKey[c.position.toNat]? = some (some c))
    ∧ ((buildKeysAndSort 2 c10Table).partitionKey.length = 2 ∧
       (1 : Nat) < 2 ∧
       cassTableMetaPartitionKey (buildKeysAndSort 2 c10Table) 1 = none) := by
  unfold buildKeysAndSort
  rw [if_pos hmaj]
  unfold buildModern
  refine ⟨⟨?_, ?_⟩, ?_, ?_, ?_⟩
  · rw [placeKeys_fst_length, resizeOpt_length]
  · rw [placeKeys_snd_length, resizeOpt_length]
  · intro c hc h1 hu h2 h3
    apply placeKeys_fst_get_unique _ _ _ _ hc h1 h2
    · rw [resizeOpt_length]; exact h3
    · exact hu
  · intro c hc h1 hu h2 h3
    apply placeKeys_snd_get_unique _ _ _ _ hc h1 h2
    · rw [resizeOpt_length]; exact h3
    · exact hu
  · exact ⟨rfl, by decide, rfl⟩

theorem modern_key_slots_witness :
    (2 ≤ (2 : Int)) ∧
    (buildKeysAndSort 2 c10Table).partitionKey.length =
        getColumnCount c10Table.columns .partitionKey ∧
    cassTableMetaPartitionKey (buildKeysAndSort 2 c10Table) 1 = none :=
  ⟨by decide, ((modern_key_slots 2 c10Table (by decide)).1).1,
    (((modern_key_slots 2 c10Table (by decide)).2).2).2.2.2⟩

/-! ## Claim C1 — snapshot isolation is violated by `update_columns` -/

/-- Catalog configured for a modern (major 2) server. -/
def c1State0 : MetaState := { initMetadata with cassMajor := 2 }

/-- Tables-result row creating keyspace `ks` and table `t`. -/
def c1TabRow : TabRow := { keyspace_name := some "ks", columnfamily_name := some "t" }

/-- Columns-result row: partition column `c` of `ks.t`. -/
def c1ColRowC : ColRow :=
  { keyspace_name := some "ks"
    columnfamily_name := some "t"
    column_name := some "c"
    typeStr := some "partition_key"
    componentIndex := some 0 }

/-- Columns-result row: regular column `x` of `ks.t`, arriving in a
later `update_tables` call whose tables result does not recreate `t`. -/
def c1ColRowX : ColRow :=
  { keyspace_name := some "ks"
    columnfamily_name := some "t"
    column_name := some "x" }

/-- Claim C1 is false on the code: `update_columns` obtains the table via
`get_or_create_table` and then calls `clear_columns`/`add_column`/
`build_keys_and_sort` on it in place.  When the accompanying tables
result did not recreate the table, the mutated `TableMetadata` object is
the very one a previously taken snapshot references, so the snapshot
observes its columns and keys change: after a first `update_tables`
giving `ks.t` columns `[c]`, a snapshot is taken; a second
`update_tables` with an empty tables result and a columns result naming
only `x` makes the same snapshot observe columns `[x]` and an empty
partition key. -/
theorem snapshot_observes_inplace_table_mutation :
    ∃ s1 s2 : MetaState,
      step (.updateTables [c1TabRow] [c1ColRowC]) c1State0 = some s1 ∧
      step (.updateTables [] [c1ColRowX]) s1 = some s2 ∧
      observeKs s2.heap (schemaSnapshot s1).keyspaces ≠
        observeKs s1.heap (schemaSnapshot s1).keyspaces := by
  refine ⟨_, _, rfl, rfl, ?_⟩
  decide

end Cass
